import Mathlib

/-!
Shallow embedding of the suokif-compiler core (src/suokif_compiler/core.py,
ast.py, symbol_table.py).  Text is modelled as List Char; Python string
slicing text[a:b] becomes listExtract.  The lexer regex
of Compiler._tokenize is modelled by a character scanner with an explicit
fuel argument (fuel is always instantiated with enough budget, so it never
runs out); the Python re module's whitespace class is modelled by its ASCII
part, which is the only part exercised by the repository.  Mutable AST
nodes become a sum type; the single post-construction mutation in the
source (assigning source_text, and the operator-promotion step in
Compiler._parse) becomes functional record replacement.
-/

namespace SuoKif

/-- Whitespace as matched by the Python regex class backslash-s, restricted
to its ASCII members. -/
def isWsChar (c : Char) : Bool :=
  c = ' ' || c = '\t' || c = '\n' || c = '\r' || c = '\x0b' || c = '\x0c'

/-- Characters allowed inside a bare atom: the regex alternative that
matches one or more characters that are not whitespace and not
parentheses. -/
def isAtomChar (c : Char) : Bool :=
  !(isWsChar c) && c ≠ '(' && c ≠ ')'

/-- The backquote character, written via its code point. -/
def backquote : Char := Char.ofNat 96

/-- One lexer token: its text and its half-open offsets into the input,
mirroring the (token_text, match.start, match.end) triples of
Compiler._tokenize. -/
structure Tok where
  text : List Char
  tstart : Nat
  tstop : Nat
deriving DecidableEq

/-- Python slicing text[a:b] on a string, on the List Char model. -/
def listExtract (cs : List Char) (a b : Nat) : List Char :=
  (cs.take b).drop a

/-- The scanner behind Compiler._tokenize.  It walks the input once,
emitting the same tokens as the regex
semicolon-comment / quoted-string / lparen / rparen / bare-atom,
longest-match-first at each position, and dropping comment tokens (the
Python code filters tokens that start with a semicolon).  A double quote
with no later closing quote falls through to the bare-atom rule, exactly
as the regex alternation does.  The first argument is fuel; every call
consumes at least one character, so fuel larger than the remaining length
never runs out. -/
def scant : Nat → List Char → Nat → List Tok
  | 0, _, _ => []
  | _ + 1, [], _ => []
  | fuel + 1, c :: rest, p =>
    if isWsChar c then scant fuel rest (p + 1)
    else if c = ';' then
      let n := (rest.takeWhile (fun d => d ≠ '\n')).length
      scant fuel (rest.drop n) (p + 1 + n)
    else if c = '(' then
      ⟨['('], p, p + 1⟩ :: scant fuel rest (p + 1)
    else if c = ')' then
      ⟨[')'], p, p + 1⟩ :: scant fuel rest (p + 1)
    else if c = '"' then
      match rest.findIdx? (fun d => d = '"') with
      | some j =>
        ⟨'"' :: (rest.take j ++ ['"']), p, p + j + 2⟩ ::
          scant fuel (rest.drop (j + 1)) (p + j + 2)
      | none =>
        let run := (c :: rest).takeWhile isAtomChar
        ⟨run, p, p + run.length⟩ ::
          scant fuel (rest.drop (run.length - 1)) (p + run.length)
    else
      let run := (c :: rest).takeWhile isAtomChar
      ⟨run, p, p + run.length⟩ ::
        scant fuel (rest.drop (run.length - 1)) (p + run.length)

/-- Compiler._tokenize: scan the whole input from offset 0. -/
def tokenize (cs : List Char) : List Tok :=
  scant (cs.length + 1) cs 0

/-- The eight reserved operator keywords, one tag per Operator subclass of
ast.py (Conditional, Biconditional, And, Or, Not, Exists, Eq, ForAll). -/
inductive OpKind where
  | conditional
  | biconditional
  | andK
  | orK
  | notK
  | existsK
  | eqK
  | forAllK
deriving DecidableEq

/-- The AST node model of ast.py as a sum type.  Every variant carries the
source_text field (None until the parser assigns it).  String keeps both
its content and original_text fields (always the same token text in the
source); Number's float content is determined by its original_text via the
host float parser and is not separately modelled; Boolean keeps its bool
content and original_text. -/
inductive ASTNode where
  | str (content : List Char) (originalText : List Char) (sourceText : Option (List Char))
  | num (originalText : List Char) (sourceText : Option (List Char))
  | boolean (content : Bool) (originalText : List Char) (sourceText : Option (List Char))
  | symbol (name : List Char) (sourceText : Option (List Char))
  | var (name : List Char) (sourceText : Option (List Char))
  | expr (children : List ASTNode) (sourceText : Option (List Char))
  | oper (kind : OpKind) (children : List ASTNode) (sourceText : Option (List Char))

/-- Assignment node.source_text = s, the only mutation the source performs
on an already-constructed node apart from promotion. -/
def setSource : ASTNode → List Char → ASTNode
  | .str c o _, s => .str c o (some s)
  | .num o _, s => .num o (some s)
  | .boolean b o _, s => .boolean b o (some s)
  | .symbol n _, s => .symbol n (some s)
  | .var n _, s => .var n (some s)
  | .expr ch _, s => .expr ch (some s)
  | .oper k ch _, s => .oper k ch (some s)

/-- Read a node's source_text field. -/
def sourceTextOf : ASTNode → Option (List Char)
  | .str _ _ s => s
  | .num _ s => s
  | .boolean _ _ s => s
  | .symbol _ s => s
  | .var _ s => s
  | .expr _ s => s
  | .oper _ _ s => s

/-- Children of a node; leaves have none. -/
def childrenOf : ASTNode → List ASTNode
  | .expr ch _ => ch
  | .oper _ ch _ => ch
  | _ => []

/-- The Variable dataclass of ast.py: its post-init hook strips one
leading question mark from the stored name. -/
def mkVariable (name : List Char) : ASTNode :=
  .var (if name.head? = some '?' then name.drop 1 else name) none

/-- ASCII decimal digit. -/
def isDigitChar (c : Char) : Bool := '0' ≤ c && c ≤ '9'

/-- Consume the continuation of a digit group: digits with single
underscores allowed only between digits, per the CPython float grammar
(PEP 515).  Returns the unconsumed remainder. -/
def chompDigits : List Char → List Char
  | '_' :: c :: cs => if isDigitChar c then chompDigits cs else '_' :: c :: cs
  | c :: cs => if isDigitChar c then chompDigits cs else c :: cs
  | [] => []

/-- Consume one digit group (at least one digit required); none when the
input does not start with a digit. -/
def chompDigitPart : List Char → Option (List Char)
  | c :: cs => if isDigitChar c then some (chompDigits cs) else none
  | [] => none

/-- Consume the mantissa of a decimal float literal:
digits [ dot [digits] ] or dot digits. -/
def chompMantissa (cs : List Char) : Option (List Char) :=
  match chompDigitPart cs with
  | some rest =>
    match rest with
    | '.' :: rest2 =>
      match chompDigitPart rest2 with
      | some r => some r
      | none => some rest2
    | _ => some rest
  | none =>
    match cs with
    | '.' :: rest2 => chompDigitPart rest2
    | _ => none

/-- Exponent part after the letter e: optional sign then a digit group,
consuming the whole remainder. -/
def expMatch (cs : List Char) : Bool :=
  let cs2 := match cs with
    | '+' :: r => r
    | '-' :: r => r
    | r => r
  match chompDigitPart cs2 with
  | some [] => true
  | _ => false

/-- Case-insensitive comparison with a keyword. -/
def lowerEq (cs : List Char) (kw : List Char) : Bool :=
  cs.map Char.toLower = kw

/-- Unsigned body of the CPython float constructor grammar: the words
inf, infinity, nan (case-insensitive) or a decimal/exponential numeral
with underscore-separated digit groups. -/
def pyFloatBody (cs : List Char) : Bool :=
  lowerEq cs ("inf".toList) || lowerEq cs ("infinity".toList) ||
  lowerEq cs ("nan".toList) ||
  (match chompMantissa cs with
   | none => false
   | some [] => true
   | some (e :: rest) => (e = 'e' || e = 'E') && expMatch rest)

/-- Acceptance of the CPython builtin float constructor on a string:
surrounding whitespace is stripped, then an optional sign, then the body.
This models the host float parser used by Compiler._create_atom via
float(token); the Unicode-digit and Unicode-space generalisations of
CPython are not exercised by lexer tokens and are not modelled. -/
def pyFloatAccepts (cs : List Char) : Bool :=
  let t := ((cs.dropWhile isWsChar).reverse.dropWhile isWsChar).reverse
  let t2 := match t with
    | '+' :: r => r
    | '-' :: r => r
    | r => r
  pyFloatBody t2

/-- Compiler._create_atom: the classification chain, in source order:
string (leading double quote or backquote), variable (leading question
mark), the two boolean keywords, the eight operator keywords, float
acceptance, and finally Symbol. -/
def createAtom (token : List Char) : ASTNode :=
  if token.head? = some '"' || token.head? = some backquote then
    .str token token none
  else if token.head? = some '?' then
    mkVariable token
  else if token = ("true".toList) then .boolean true token none
  else if token = ("false".toList) then .boolean false token none
  else if token = ("=>".toList) then .oper .conditional [] none
  else if token = ("<=>".toList) then .oper .biconditional [] none
  else if token = ("and".toList) then .oper .andK [] none
  else if token = ("or".toList) then .oper .orK [] none
  else if token = ("not".toList) then .oper .notK [] none
  else if token = ("exists".toList) then .oper .existsK [] none
  else if token = ("=".toList) then .oper .eqK [] none
  else if token = ("forall".toList) then .oper .forAllK [] none
  else if pyFloatAccepts token then .num token none
  else .symbol token none

/-- Error kinds of the compile pipeline, one per raise site of core.py:
the empty-input guard of compile, the unexpected close paren and the
unclosed open paren of Compiler._parse. -/
inductive ParseErr where
  | emptyInput
  | unmatchedClose
  | unclosedOpen
deriving DecidableEq

/-- Parser state of Compiler._parse: the Python code keeps a stack of
frames whose bottom element is the top-level result list.  Here base is
that bottom frame and opens holds the frames of currently open
parenthesized lists, innermost first, each paired with the offset where
its opening parenthesis began (the starts list of the source). -/
structure PState where
  base : List ASTNode
  opens : List (List ASTNode × Nat)

/-- Close of a parenthesized list, from Compiler._parse: when the first
accumulated child is an Operator instance, that node is promoted and its
children are replaced by the remaining elements; otherwise a generic
Expression holds all accumulated elements. -/
def closeFrame : List ASTNode → ASTNode
  | .oper k _ _ :: rest => .oper k rest none
  | fin => .expr fin none

/-- Append a node to the current innermost frame (stack[-1] in the
source): the top open frame when one exists, the base frame otherwise. -/
def appendCur (s : PState) (n : ASTNode) : PState :=
  match s.opens with
  | [] => ⟨s.base ++ [n], []⟩
  | (f, a) :: r => ⟨s.base, (f ++ [n], a) :: r⟩

/-- One iteration of the token loop of Compiler._parse. -/
def pstep (text : List Char) (s : PState) (t : Tok) : Except ParseErr PState :=
  if t.text = ['('] then
    .ok ⟨s.base, ([], t.tstart) :: s.opens⟩
  else if t.text = [')'] then
    match s.opens with
    | [] => .error .unmatchedClose
    | (fin, a) :: r =>
      .ok (appendCur ⟨s.base, r⟩ (setSource (closeFrame fin) (listExtract text a t.tstop)))
  else
    .ok (appendCur s (setSource (createAtom t.text) (listExtract text t.tstart t.tstop)))

/-- The token loop of Compiler._parse, run over a token list. -/
def prun (text : List Char) (ts : List Tok) (s : PState) : Except ParseErr PState :=
  ts.foldlM (pstep text) s

/-- Compiler._parse: run the loop from one empty base frame; at the end
exactly the base frame must remain, otherwise the unclosed-paren error is
raised.  The result is the base frame's accumulated top-level nodes. -/
def parse (ts : List Tok) (text : List Char) : Except ParseErr (List ASTNode) :=
  match prun text ts ⟨[], []⟩ with
  | .error e => .error e
  | .ok s => if s.opens.isEmpty then .ok s.base else .error .unclosedOpen

/-- The symbol table of symbol_table.py: a name-keyed mapping to lists of
referenced nodes, modelled as an association list in key insertion order
(Python dict order). -/
structure SymbolTable where
  table : List (List Char × List ASTNode)

/-- SymbolTable.add_reference: create the entry on first occurrence, then
append the node to the name's list. -/
def SymbolTable.addReference (st : SymbolTable) (symbolName : List Char) (node : ASTNode) : SymbolTable :=
  if (st.table.lookup symbolName).isSome then
    ⟨st.table.map (fun pr => if pr.1 = symbolName then (pr.1, pr.2 ++ [node]) else pr)⟩
  else
    ⟨st.table ++ [(symbolName, [node])]⟩

/-- Modelled from the spec: SymbolTable.get_references, which
Compiler.find_symbol_usages calls but which is absent from
symbol_table.py (the call raises AttributeError at runtime).  The spec's
lookup operation: given a name, return its list verbatim, the empty list
if the name was never seen. -/
def SymbolTable.getReferences (st : SymbolTable) (symbolName : List Char) : List ASTNode :=
  match st.table.lookup symbolName with
  | some l => l
  | none => []

mutual

/-- Compiler._traverse_and_collect: expressions (Operator included, being
an Expression subclass) recurse into their children with themselves as
parent; a Symbol records one reference to its parent when one exists,
else to itself; every other node contributes nothing. -/
def traverseAndCollect (node : ASTNode) (parent : Option ASTNode) (st : SymbolTable) : SymbolTable :=
  match node with
  | .expr ch s => collectChildren ch (.expr ch s) st
  | .oper k ch s => collectChildren ch (.oper k ch s) st
  | .symbol n s =>
    st.addReference n (match parent with | some pr => pr | none => .symbol n s)
  | _ => st

/-- Left-to-right traversal of a child list, threading the table. -/
def collectChildren (ch : List ASTNode) (par : ASTNode) (st : SymbolTable) : SymbolTable :=
  match ch with
  | [] => st
  | c :: cs => collectChildren cs par (traverseAndCollect c (some par) st)

end

/-- Compiler._build_symbol_table: start from a fresh empty table and
traverse each top-level node with no parent. -/
def buildSymbolTable (nodes : List ASTNode) : SymbolTable :=
  nodes.foldl (fun st n => traverseAndCollect n none st) ⟨[]⟩

/-- The two result fields of a Compiler instance: self.ast and
self.symbol_table. -/
structure CompilerState where
  ast : List ASTNode
  symbolTable : SymbolTable

/-- Compiler.__init__: empty AST list and empty symbol table. -/
def initCompiler : CompilerState :=
  ⟨[], ⟨[]⟩⟩

/-- Compiler.compile: reject the empty string up front, tokenize, parse,
rebuild the symbol table, and replace both instance fields.  A raised
error leaves the instance fields untouched because the Python assignments
happen only after _parse returns; that order is mirrored here by
returning the incoming state on the error path. -/
def CompilerState.compile (self : CompilerState) (kifString : List Char) :
    CompilerState × Except ParseErr (List ASTNode) :=
  if kifString = [] then (self, .error .emptyInput)
  else
    match parse (tokenize kifString) kifString with
    | .error e => (self, .error e)
    | .ok ast => (⟨ast, buildSymbolTable ast⟩, .ok ast)

/-- Compiler.find_symbol_usages, through the spec-modelled lookup. -/
def CompilerState.findSymbolUsages (self : CompilerState) (symbolName : List Char) : List ASTNode :=
  self.symbolTable.getReferences symbolName

mutual

/-- All nodes of a tree in depth-first preorder. -/
def allNodes : ASTNode → List ASTNode
  | .expr ch s => .expr ch s :: allNodesL ch
  | .oper k ch s => .oper k ch s :: allNodesL ch
  | n => [n]

/-- All nodes of a forest in depth-first preorder. -/
def allNodesL : List ASTNode → List ASTNode
  | [] => []
  | n :: ns => allNodes n ++ allNodesL ns

end

mutual

/-- The reference stream of the index builder, as a flat list: for each
Symbol in depth-first order, the pair of its name and its referenced node
(the nearest enclosing expression, else the Symbol itself). -/
def flatRefs (parent : Option ASTNode) : ASTNode → List (List Char × ASTNode)
  | .expr ch s => flatRefsL (.expr ch s) ch
  | .oper k ch s => flatRefsL (.oper k ch s) ch
  | .symbol n s => [(n, match parent with | some pr => pr | none => .symbol n s)]
  | _ => []

/-- Reference stream of a child list under a given parent. -/
def flatRefsL (par : ASTNode) : List ASTNode → List (List Char × ASTNode)
  | [] => []
  | c :: cs => flatRefs (some par) c ++ flatRefsL par cs

end

/-- References recorded for one name, in encounter order. -/
def refsFor (nodes : List ASTNode) (name : List Char) : List ASTNode :=
  ((nodes.flatMap (flatRefs none)).filter (fun pr => pr.1 = name)).map Prod.snd

/-- Contribution of one token to the parenthesis depth. -/
def tokDepth (t : Tok) : Int :=
  if t.text = ['('] then 1 else if t.text = [')'] then -1 else 0

/-- Sum of parenthesis depths over a token list. -/
def depthSum : List Tok → Int
  | [] => 0
  | t :: ts => tokDepth t + depthSum ts

/-- Balance of a token window: no prefix closes more lists than it has
opened, and opens and closes cancel overall. -/
def balT (ts : List Tok) : Prop :=
  (∀ k, 0 ≤ depthSum (ts.take k)) ∧ depthSum ts = 0

/-- Scanning from offset zero with maximal fuel; tokenize equals scanT at
offset zero by definition. -/
def scanT (cs : List Char) (p : Nat) : List Tok :=
  scant (cs.length + 1) cs p

/-- Shift a token's offsets right by p. -/
def shiftTok (p : Nat) (t : Tok) : Tok :=
  ⟨t.text, t.tstart + p, t.tstop + p⟩

/-- Shift a token's offsets left by a. -/
def unshiftTok (a : Nat) (t : Tok) : Tok :=
  ⟨t.text, t.tstart - a, t.tstop - a⟩

/-- Fold a flat reference stream into a table with add_reference. -/
def extendTable (st : SymbolTable) (prs : List (List Char × ASTNode)) : SymbolTable :=
  prs.foldl (fun a pr => a.addReference pr.1 pr.2) st

/-- A node is not a generic Expression whose first child is an Operator
node: the promotion step of the tree builder fires on every frame whose
first accumulated child is an Operator instance, so no built Expression
can look like that. -/
def notOperHeaded (n : ASTNode) : Prop :=
  ∀ ch s, n = ASTNode.expr ch s → ∀ k cs s2, ch.head? ≠ some (ASTNode.oper k cs s2)

/-- Shape of a completed string token: an opening quote, quote-free
middle, closing quote. -/
def stringShape (txt : List Char) : Prop :=
  ∃ mid, txt = '"' :: (mid ++ ['"']) ∧ '"' ∉ mid

/-- Shape of a bare-atom token: nonempty, only atom characters, not
starting with a semicolon, and when starting with a quote the rest is
quote-free (the unterminated-string fallback). -/
def atomShape (txt : List Char) : Prop :=
  txt ≠ [] ∧ (∀ c ∈ txt, isAtomChar c = true) ∧ txt.head? ≠ some ';' ∧
    (txt.head? = some '"' → '"' ∉ txt.tail)

/-- Every token the scanner emits has one of these shapes. -/
def TokWf (t : Tok) : Prop :=
  t.text = ['('] ∨ t.text = [')'] ∨ stringShape t.text ∨ atomShape t.text

/-- The round-trip property of one node: re-lexing and re-parsing its
recorded source text in isolation reproduces exactly that node, and a
parenthesized node's source text runs from its opening parenthesis
through its closing parenthesis inclusive. -/
def goodNode (n : ASTNode) : Prop :=
  (∀ s, sourceTextOf n = some s → parse (tokenize s) s = Except.ok [n]) ∧
    (∀ ch s, (n = ASTNode.expr ch (some s) ∨
        (∃ k, n = ASTNode.oper k ch (some s) ∧ ch ≠ [])) →
      s.head? = some '(' ∧ s.getLast? = some ')')

/-- Graft a parser state evolution on top of a larger ambient state: the
virtual base b lands in the ambient innermost frame (or the ambient base
when no frame is open) and the virtual open frames o sit above the
ambient ones.  Runs of token windows commute with grafting. -/
def graft (s : PState) (b : List ASTNode) (o : List (List ASTNode × Nat)) : PState :=
  match s.opens with
  | [] => ⟨s.base ++ b, o⟩
  | (f, a) :: r => ⟨s.base, o ++ (f ++ b, a) :: r⟩

/-- Chain of justifications for the currently open frames of a parser
state after i tokens: each open frame was opened by an actual open-paren
token of the scan, and replaying the token window from just after that
token up to position i inside a single fresh frame reproduces exactly the
frame's accumulated nodes; the outer frames are justified up to the inner
frame's opening position. -/
def frameChain (text : List Char) : Nat → List (List ASTNode × Nat) → Prop
  | _, [] => True
  | i, (f, a) :: r => ∃ i0, i0 < i ∧
      (scanT text 0)[i0]? = some ⟨['('], a, a + 1⟩ ∧
      prun text (((scanT text 0).drop (i0 + 1)).take (i - i0 - 1)) ⟨[], [([], a)]⟩ =
        Except.ok ⟨[], [(f, a)]⟩ ∧
      frameChain text i0 r

/-- Invariant of the parser run after i tokens: every node accumulated in
the base frame or in any open frame is a round-tripping node together
with all its descendants, and the open frames carry their replay
justifications. -/
def goodState (text : List Char) (i : Nat) (s : PState) : Prop :=
  (∀ n ∈ allNodesL s.base, goodNode n) ∧
  (∀ pr ∈ s.opens, ∀ n ∈ allNodesL pr.1, goodNode n) ∧
  frameChain text i s.opens

lemma prun_cons (text : List Char) (t : Tok) (ts : List Tok) (s : PState) :
    prun text (t :: ts) s =
      match pstep text s t with
      | .error e => .error e
      | .ok s2 => prun text ts s2 := by
  rw [prun, List.foldlM_cons]
  cases pstep text s t with
  | error e => rfl
  | ok s2 => rfl

lemma prun_nil (text : List Char) (s : PState) : prun text [] s = .ok s := rfl

lemma pstep_error (text : List Char) (s : PState) (t : Tok) (e : ParseErr)
    (h : pstep text s t = .error e) : e = .unmatchedClose := by
  unfold pstep at h
  split at h
  · simp at h
  · split at h
    · split at h
      · exact (Except.error.inj h).symm
      · simp at h
    · simp at h

lemma prun_error_eq (text : List Char) (ts : List Tok) (s : PState) (e : ParseErr)
    (h : prun text ts s = .error e) : e = .unmatchedClose := by
  induction ts generalizing s with
  | nil => rw [prun_nil] at h; simp at h
  | cons t ts ih =>
    rw [prun_cons] at h
    cases hp : pstep text s t with
    | error e2 =>
      rw [hp] at h
      exact (Except.error.inj h) ▸ pstep_error text s t e2 hp
    | ok s2 =>
      rw [hp] at h
      exact ih s2 h

lemma parse_out (ts : List Tok) (text : List Char) :
    (∃ e, prun text ts ⟨[], []⟩ = .error e ∧ e = .unmatchedClose ∧
        parse ts text = .error e) ∨
      (∃ s, prun text ts ⟨[], []⟩ = .ok s ∧ s.opens = [] ∧ parse ts text = .ok s.base) ∨
      (∃ s, prun text ts ⟨[], []⟩ = .ok s ∧ s.opens ≠ [] ∧
        parse ts text = .error .unclosedOpen) := by
  cases hp : prun text ts ⟨[], []⟩ with
  | error e =>
    exact Or.inl ⟨e, rfl, prun_error_eq text ts _ e hp, by unfold parse; rw [hp]⟩
  | ok s =>
    by_cases hs : s.opens.isEmpty
    · refine Or.inr (Or.inl ⟨s, rfl, List.isEmpty_iff.mp hs, ?_⟩)
      unfold parse
      rw [hp]
      simp [hs]
    · refine Or.inr (Or.inr ⟨s, rfl, fun hc => hs (by simp [hc]), ?_⟩)
      unfold parse
      rw [hp]
      simp only [Bool.not_eq_true] at hs
      simp [hs]

lemma parse_error_kinds (ts : List Tok) (text : List Char) (e : ParseErr)
    (h : parse ts text = .error e) : e = .unmatchedClose ∨ e = .unclosedOpen := by
  rcases parse_out ts text with ⟨e2, _, he2, hp⟩ | ⟨s, _, _, hp⟩ | ⟨s, _, _, hp⟩
  · rw [hp] at h
    exact Or.inl ((Except.error.inj h).symm.trans he2)
  · rw [hp] at h
    simp at h
  · rw [hp] at h
    exact Or.inr (Except.error.inj h).symm

lemma compile_out (st : CompilerState) (s : List Char) :
    (s = [] ∧ st.compile s = (st, .error .emptyInput)) ∨
      (s ≠ [] ∧ ∃ e, parse (tokenize s) s = .error e ∧ st.compile s = (st, .error e)) ∨
      (s ≠ [] ∧ ∃ ast, parse (tokenize s) s = .ok ast ∧
        st.compile s = (⟨ast, buildSymbolTable ast⟩, .ok ast)) := by
  by_cases hs : s = []
  · exact Or.inl ⟨hs, by unfold CompilerState.compile; rw [if_pos hs]⟩
  · cases hp : parse (tokenize s) s with
    | error e =>
      exact Or.inr (Or.inl ⟨hs, e, rfl,
        by unfold CompilerState.compile; rw [if_neg hs, hp]⟩)
    | ok ast =>
      exact Or.inr (Or.inr ⟨hs, ast, rfl,
        by unfold CompilerState.compile; rw [if_neg hs, hp]⟩)

/-- Claim C2, counterexample: a whitespace-only input (a single space) does
not raise EmptyInput; compile returns the empty node list, contradicting
the claim that inputs containing no tokens raise EmptyInput. -/
theorem c2_counterexample :
    (initCompiler.compile [' ']).2 = Except.ok [] := rfl

/-- Claim C2, amended: compile raises EmptyInput exactly when the input is
the empty string; whitespace-only or comment-only inputs raise no error
and compile to the empty node list. -/
theorem c2_empty_input_iff (st : CompilerState) (s : List Char) :
    (st.compile s).2 = Except.error ParseErr.emptyInput ↔ s = [] := by
  rcases compile_out st s with ⟨hs, hc⟩ | ⟨hs, e, hp, hc⟩ | ⟨hs, ast, hp, hc⟩
  · rw [hc]
    simp [hs]
  · rw [hc]
    simp only [hs, iff_false]
    intro h
    have he := (Except.error.inj h)
    rcases parse_error_kinds _ _ _ hp with h2 | h2 <;> rw [h2] at he <;> cases he
  · rw [hc]
    simp [hs]

/-- Claim C8: when compile returns any of the three error kinds, the
compiler instance fields (ast and symbol table) are exactly the incoming
ones; the assignments of Compiler.compile happen only after a successful
parse. -/
theorem c8_error_atomicity (st : CompilerState) (s : List Char) (e : ParseErr)
    (h : (st.compile s).2 = Except.error e) : (st.compile s).1 = st := by
  rcases compile_out st s with ⟨hs, hc⟩ | ⟨hs, e2, hp, hc⟩ | ⟨hs, ast, hp, hc⟩
  · rw [hc]
  · rw [hc]
  · rw [hc] at h
    simp at h

/-- Witness for C8 at the concrete input of a lone open parenthesis,
which raises the unclosed-paren error. -/
theorem c8_error_atomicity_witness :
    (initCompiler.compile ("(".toList)).1 = initCompiler :=
  c8_error_atomicity initCompiler ("(".toList) ParseErr.unclosedOpen rfl

/-- Claim C7: a successful compile replaces the instance fields wholesale
with material derived from the current input only; the result equals a
compile on a fresh instance, regardless of any earlier compile. -/
theorem c7_recompile_replaces (st : CompilerState) (s1 s2 : List Char)
    (st1 : CompilerState) (r1 : Except ParseErr (List ASTNode))
    (st2 : CompilerState) (ast2 : List ASTNode)
    (_h1 : st.compile s1 = (st1, r1))
    (h2 : st1.compile s2 = (st2, Except.ok ast2)) :
    st2.ast = ast2 ∧ st2.symbolTable = buildSymbolTable ast2 ∧
      initCompiler.compile s2 = (st2, Except.ok ast2) := by
  clear _h1
  rcases compile_out st1 s2 with ⟨hs, hc⟩ | ⟨hs, e, hp, hc⟩ | ⟨hs, a, hp, hc⟩
  · rw [hc] at h2
    have := congrArg Prod.snd h2
    simp at this
  · rw [hc] at h2
    have := congrArg Prod.snd h2
    simp at this
  · rw [hc] at h2
    have hfst := congrArg Prod.fst h2
    have hsnd := congrArg Prod.snd h2
    simp only [Prod.fst, Prod.snd] at hfst hsnd
    have ha : a = ast2 := Except.ok.inj hsnd
    subst ha
    rcases compile_out initCompiler s2 with ⟨hs0, _⟩ | ⟨_, e0, hp0, _⟩ | ⟨_, a0, hp0, hc0⟩
    · exact absurd hs0 hs
    · rw [hp0] at hp
      cases hp
    · rw [hp0] at hp
      have ha0 : a0 = a := Except.ok.inj hp
      subst ha0
      rw [← hfst]
      exact ⟨rfl, rfl, hc0⟩

/-- Witness for C7: compile a first input, then a second on the same
instance; the fields hold exactly the second compile's material. -/
theorem c7_recompile_replaces_witness :
    (((initCompiler.compile ("(a)".toList)).1.compile ("(b)".toList)).1).ast =
        [ASTNode.expr [ASTNode.symbol ['b'] (some ['b'])] (some ("(b)".toList))] ∧
      (((initCompiler.compile ("(a)".toList)).1.compile ("(b)".toList)).1).symbolTable =
        buildSymbolTable [ASTNode.expr [ASTNode.symbol ['b'] (some ['b'])] (some ("(b)".toList))] ∧
      initCompiler.compile ("(b)".toList) =
        (((initCompiler.compile ("(a)".toList)).1.compile ("(b)".toList)).1,
          Except.ok [ASTNode.expr [ASTNode.symbol ['b'] (some ['b'])] (some ("(b)".toList))]) :=
  c7_recompile_replaces initCompiler ("(a)".toList) ("(b)".toList)
    (initCompiler.compile ("(a)".toList)).1 (initCompiler.compile ("(a)".toList)).2
    ((initCompiler.compile ("(a)".toList)).1.compile ("(b)".toList)).1
    [ASTNode.expr [ASTNode.symbol ['b'] (some ['b'])] (some ("(b)".toList))]
    rfl rfl

/-- Claim C9: every token beginning with a question mark classifies as a
Variable whose stored name is the token with one leading question mark
stripped. -/
theorem c9_variable_sigil (token : List Char) (h : token.head? = some '?') :
    createAtom token = ASTNode.var (token.drop 1) none := by
  unfold createAtom mkVariable
  rw [h]
  norm_num [backquote]
  intro hc
  exact absurd hc (by decide)

/-- Witness for C9 at the two concrete tokens of the claim: a question
mark followed by x gives name x, and a bare question mark gives the empty
name. -/
theorem c9_variable_sigil_witness :
    createAtom ("?x".toList) = ASTNode.var ['x'] none ∧
      createAtom ("?".toList) = ASTNode.var [] none :=
  ⟨c9_variable_sigil ("?x".toList) rfl, c9_variable_sigil ("?".toList) rfl⟩

/-- Claim C10: the final classifier step delegates to the host float
parser, so the words inf, nan, Infinity and the underscore-separated
numeral 1_000 all classify as number literals, while abc3 falls through
to Symbol. -/
theorem c10_float_host_semantics :
    createAtom ("inf".toList) = ASTNode.num ("inf".toList) none ∧
      createAtom ("nan".toList) = ASTNode.num ("nan".toList) none ∧
      createAtom ("Infinity".toList) = ASTNode.num ("Infinity".toList) none ∧
      createAtom ("1_000".toList) = ASTNode.num ("1_000".toList) none ∧
      createAtom ("abc3".toList) = ASTNode.symbol ("abc3".toList) none ∧
      createAtom ("3.5".toList) = ASTNode.num ("3.5".toList) none ∧
      createAtom ("-2e3".toList) = ASTNode.num ("-2e3".toList) none :=
  ⟨rfl, rfl, rfl, rfl, rfl, rfl, rfl⟩

/-- Claim C3, counterexample: parsing a list whose first element is an
already-promoted operator expression does not produce a generic
Expression; the code re-promotes the operator node and replaces its
children with the remaining elements. -/
theorem c3_counterexample :
    parse (tokenize ("((and a b) c)".toList)) ("((and a b) c)".toList) =
        Except.ok [ASTNode.oper OpKind.andK [ASTNode.symbol ['c'] (some ['c'])]
          (some ("((and a b) c)".toList))] ∧
      ∀ ch s, parse (tokenize ("((and a b) c)".toList)) ("((and a b) c)".toList) ≠
        Except.ok [ASTNode.expr ch s] := by
  refine ⟨rfl, ?_⟩
  intro ch s h
  rw [show parse (tokenize ("((and a b) c)".toList)) ("((and a b) c)".toList) =
      Except.ok [ASTNode.oper OpKind.andK [ASTNode.symbol ['c'] (some ['c'])]
        (some ("((and a b) c)".toList))] from rfl] at h
  simp at h

lemma lookup_cons (name k : List Char) (v : List ASTNode)
    (tl : List (List Char × List ASTNode)) :
    List.lookup name ((k, v) :: tl) = if name = k then some v else List.lookup name tl := by
  by_cases h : name = k
  · subst h
    simp [List.lookup]
  · rw [if_neg h]
    simp [List.lookup, beq_eq_false_iff_ne.mpr h]

lemma lookup_map_update (l : List (List Char × List ASTNode)) (nm name : List Char)
    (node : ASTNode) :
    (l.map (fun pr => if pr.1 = nm then (pr.1, pr.2 ++ [node]) else pr)).lookup name =
      (l.lookup name).map (fun v => if name = nm then v ++ [node] else v) := by
  induction l with
  | nil => rfl
  | cons hd tl ih =>
    obtain ⟨k, v⟩ := hd
    rw [List.map_cons]
    by_cases hk : k = nm
    · rw [show (if (k, v).1 = nm then ((k, v).1, (k, v).2 ++ [node]) else (k, v)) =
          (k, v ++ [node]) from by rw [if_pos hk]]
      rw [lookup_cons, lookup_cons]
      by_cases hq : name = k
      · rw [if_pos hq, if_pos hq]
        rw [Option.map_some']
        rw [if_pos (hq.trans hk)]
      · rw [if_neg hq, if_neg hq]
        exact ih
    · rw [show (if (k, v).1 = nm then ((k, v).1, (k, v).2 ++ [node]) else (k, v)) =
          (k, v) from by rw [if_neg hk]]
      rw [lookup_cons, lookup_cons]
      by_cases hq : name = k
      · rw [if_pos hq, if_pos hq]
        rw [Option.map_some']
        rw [if_neg (fun hc => hk (hq.symm.trans hc))]
      · rw [if_neg hq, if_neg hq]
        exact ih

lemma lookup_append_single (l : List (List Char × List ASTNode)) (nm name : List Char)
    (v : List ASTNode) :
    (l ++ [(nm, v)]).lookup name =
      match l.lookup name with
      | some w => some w
      | none => if name = nm then some v else none := by
  induction l with
  | nil =>
    rw [List.nil_append, lookup_cons]
    rfl
  | cons hd tl ih =>
    obtain ⟨k, w⟩ := hd
    rw [List.cons_append, lookup_cons, lookup_cons]
    by_cases hq : name = k
    · rw [if_pos hq, if_pos hq]
    · rw [if_neg hq, if_neg hq]
      exact ih

lemma addReference_lookup (st : SymbolTable) (nm name : List Char) (node : ASTNode) :
    ((st.addReference nm node).table.lookup name).getD [] =
      if name = nm then ((st.table.lookup name).getD []) ++ [node]
      else (st.table.lookup name).getD [] := by
  unfold SymbolTable.addReference
  by_cases hp : (st.table.lookup nm).isSome
  · rw [if_pos hp]
    show ((st.table.map _).lookup name).getD [] = _
    rw [lookup_map_update]
    by_cases hq : name = nm
    · subst hq
      obtain ⟨w, hw⟩ := Option.isSome_iff_exists.mp hp
      simp [hw]
    · simp [hq]
  · rw [if_neg hp]
    show ((st.table ++ [(nm, [node])]).lookup name).getD [] = _
    rw [lookup_append_single]
    by_cases hq : name = nm
    · subst hq
      have hnone : st.table.lookup name = none := Option.not_isSome_iff_eq_none.mp hp
      simp [hnone]
    · cases hl : st.table.lookup name <;> simp [hl, hq]

lemma extendTable_lookup (prs : List (List Char × ASTNode)) (st : SymbolTable)
    (name : List Char) :
    ((extendTable st prs).table.lookup name).getD [] =
      (st.table.lookup name).getD [] ++
        ((prs.filter (fun pr => pr.1 = name)).map Prod.snd) := by
  induction prs generalizing st with
  | nil => simp [extendTable]
  | cons pr tl ih =>
    obtain ⟨nm, node⟩ := pr
    have hstep : extendTable st ((nm, node) :: tl) =
        extendTable (st.addReference nm node) tl := by
      simp [extendTable]
    rw [hstep, ih, addReference_lookup]
    by_cases hq : nm = name
    · subst hq
      simp [List.filter]
    · have hq2 : ¬ name = nm := fun hc => hq hc.symm
      simp [List.filter, hq, hq2]

mutual

theorem traverse_extend : ∀ (node : ASTNode) (parent : Option ASTNode) (st : SymbolTable),
    traverseAndCollect node parent st = extendTable st (flatRefs parent node)
  | .str c o s, parent, st => by simp [traverseAndCollect, flatRefs, extendTable]
  | .num o s, parent, st => by simp [traverseAndCollect, flatRefs, extendTable]
  | .boolean b o s, parent, st => by simp [traverseAndCollect, flatRefs, extendTable]
  | .var n s, parent, st => by simp [traverseAndCollect, flatRefs, extendTable]
  | .symbol n s, parent, st => by
    simp [traverseAndCollect, flatRefs, extendTable]
  | .expr ch s, parent, st => by
    simp only [traverseAndCollect, flatRefs]
    exact collect_extend ch (.expr ch s) st
  | .oper k ch s, parent, st => by
    simp only [traverseAndCollect, flatRefs]
    exact collect_extend ch (.oper k ch s) st

theorem collect_extend : ∀ (ch : List ASTNode) (par : ASTNode) (st : SymbolTable),
    collectChildren ch par st = extendTable st (flatRefsL par ch)
  | [], par, st => by simp [collectChildren, flatRefsL, extendTable]
  | c :: cs, par, st => by
    simp only [collectChildren, flatRefsL]
    rw [traverse_extend c (some par) st, collect_extend cs par _]
    simp [extendTable, List.foldl_append]

end

lemma foldl_traverse (ns : List ASTNode) (st : SymbolTable) :
    ns.foldl (fun st n => traverseAndCollect n none st) st =
      extendTable st (ns.flatMap (flatRefs none)) := by
  induction ns generalizing st with
  | nil => simp [extendTable]
  | cons n tl ih =>
    simp only [List.foldl_cons, List.flatMap_cons]
    rw [traverse_extend n none st, ih]
    simp [extendTable, List.foldl_append]

lemma build_lookup (ns : List ASTNode) (name : List Char) :
    ((buildSymbolTable ns).table.lookup name).getD [] = refsFor ns name := by
  unfold buildSymbolTable
  rw [foldl_traverse]
  rw [extendTable_lookup]
  simp [refsFor, List.lookup]

lemma getReferences_getD (t : SymbolTable) (nm : List Char) :
    t.getReferences nm = (t.table.lookup nm).getD [] := by
  unfold SymbolTable.getReferences
  cases t.table.lookup nm <;> rfl

/-- Claim C6: the per-name list of the index built by the traversal equals
the depth-first stream of symbol references filtered to that name: one
entry per Symbol occurrence, referencing the nearest enclosing expression
node or the symbol itself at top level, in encounter order, with
duplicates kept; variables, literals and other nodes contribute no
entries. -/
theorem c6_index_records (nodes : List ASTNode) (name : List Char) :
    ((buildSymbolTable nodes).table.lookup name).getD [] = refsFor nodes name :=
  build_lookup nodes name

/-- Claim C1: after a successful compile, looking a name up returns the
index's list for that name verbatim, which is the filtered depth-first
reference stream, and in particular the empty list when the name was
never recorded.  The lookup goes through the spec-modelled
get_references, since the method is absent from symbol_table.py. -/
theorem c1_lookup_verbatim (st : CompilerState) (s : List Char) (st2 : CompilerState)
    (ast : List ASTNode) (h : st.compile s = (st2, Except.ok ast)) (name : List Char) :
    st2.findSymbolUsages name = refsFor ast name := by
  rcases compile_out st s with ⟨hs, hc⟩ | ⟨hs, e, hp, hc⟩ | ⟨hs, a, hp, hc⟩
  · rw [hc] at h
    have := congrArg Prod.snd h
    simp at this
  · rw [hc] at h
    have := congrArg Prod.snd h
    simp at this
  · rw [hc] at h
    have hfst := congrArg Prod.fst h
    have hsnd := congrArg Prod.snd h
    simp only [Prod.fst, Prod.snd] at hfst hsnd
    have ha : a = ast := Except.ok.inj hsnd
    subst ha
    rw [← hfst]
    show SymbolTable.getReferences (buildSymbolTable a) name = refsFor a name
    rw [getReferences_getD, build_lookup]

/-- Witness for C1 at the concrete input of the spec's index-completeness
example. -/
theorem c1_lookup_verbatim_witness :
    ((initCompiler.compile ("(instance Gemini AI)".toList)).1).findSymbolUsages
        ("instance".toList) =
      refsFor
        [ASTNode.expr
          [ASTNode.symbol ("instance".toList) (some ("instance".toList)),
            ASTNode.symbol ("Gemini".toList) (some ("Gemini".toList)),
            ASTNode.symbol ("AI".toList) (some ("AI".toList))]
          (some ("(instance Gemini AI)".toList))] ("instance".toList) :=
  c1_lookup_verbatim initCompiler ("(instance Gemini AI)".toList)
    (initCompiler.compile ("(instance Gemini AI)".toList)).1
    [ASTNode.expr
      [ASTNode.symbol ("instance".toList) (some ("instance".toList)),
        ASTNode.symbol ("Gemini".toList) (some ("Gemini".toList)),
        ASTNode.symbol ("AI".toList) (some ("AI".toList))]
      (some ("(instance Gemini AI)".toList))] rfl ("instance".toList)

lemma appendCur_opens_length (s : PState) (n : ASTNode) :
    (appendCur s n).opens.length = s.opens.length := by
  obtain ⟨b, os⟩ := s
  cases os <;> rfl

lemma pstep_open (text : List Char) (s : PState) (t : Tok) (h : t.text = ['(']) :
    pstep text s t = .ok ⟨s.base, ([], t.tstart) :: s.opens⟩ := by
  unfold pstep
  rw [if_pos h]

lemma pstep_close (text : List Char) (base : List ASTNode) (f : List ASTNode) (aSt : Nat)
    (r : List (List ASTNode × Nat)) (t : Tok) (h1 : t.text ≠ ['(']) (h2 : t.text = [')']) :
    pstep text ⟨base, (f, aSt) :: r⟩ t =
      .ok (appendCur ⟨base, r⟩ (setSource (closeFrame f) (listExtract text aSt t.tstop))) := by
  unfold pstep
  rw [if_neg h1, if_pos h2]

lemma pstep_close_err (text : List Char) (base : List ASTNode) (t : Tok)
    (h1 : t.text ≠ ['(']) (h2 : t.text = [')']) :
    pstep text ⟨base, []⟩ t = .error .unmatchedClose := by
  unfold pstep
  rw [if_neg h1, if_pos h2]

lemma pstep_atom (text : List Char) (s : PState) (t : Tok)
    (h1 : t.text ≠ ['(']) (h2 : t.text ≠ [')']) :
    pstep text s t =
      .ok (appendCur s (setSource (createAtom t.text) (listExtract text t.tstart t.tstop))) := by
  unfold pstep
  rw [if_neg h1, if_neg h2]

lemma prun_ok_of_nonneg (ts : List Tok) (text : List Char) (base : List ASTNode)
    (opens : List (List ASTNode × Nat))
    (h : ∀ k, 0 ≤ (opens.length : Int) + depthSum (ts.take k)) :
    ∃ s2, prun text ts ⟨base, opens⟩ = .ok s2 ∧
      (s2.opens.length : Int) = opens.length + depthSum ts := by
  induction ts generalizing base opens with
  | nil => exact ⟨⟨base, opens⟩, prun_nil text _, by simp [depthSum]⟩
  | cons t ts ih =>
    rw [prun_cons]
    by_cases h1 : t.text = ['(']
    · rw [pstep_open text ⟨base, opens⟩ t h1]
      obtain ⟨s2, hs2, hlen⟩ := ih base (([], t.tstart) :: opens) (fun k => by
        have hk := h (k + 1)
        simp only [List.take_succ_cons, depthSum, tokDepth, if_pos h1] at hk
        simp only [List.length_cons]
        push_cast
        omega)
      refine ⟨s2, hs2, ?_⟩
      rw [hlen]
      simp only [List.length_cons, depthSum, tokDepth, if_pos h1]
      push_cast
      omega
    · by_cases h2 : t.text = [')']
      · cases opens with
        | nil =>
          exfalso
          have hk := h 1
          simp only [List.take_succ_cons, List.take_zero, depthSum, tokDepth,
            if_neg h1, if_pos h2, List.length_nil] at hk
          omega
        | cons fr r =>
          obtain ⟨f, aSt⟩ := fr
          rw [pstep_close text base f aSt r t h1 h2]
          set s3 := appendCur ⟨base, r⟩ (setSource (closeFrame f) (listExtract text aSt t.tstop)) with hs3
          obtain ⟨s2, hs2, hlen⟩ := ih s3.base s3.opens (fun k => by
            have hk := h (k + 1)
            have hl : s3.opens.length = r.length := appendCur_opens_length _ _
            simp only [List.take_succ_cons, depthSum, tokDepth, if_neg h1, if_pos h2,
              List.length_cons] at hk
            rw [hl]
            push_cast at hk ⊢
            omega)
          refine ⟨s2, hs2, ?_⟩
          rw [hlen]
          have hl : s3.opens.length = r.length := appendCur_opens_length _ _
          rw [hl]
          simp only [List.length_cons, depthSum, tokDepth, if_neg h1, if_pos h2]
          push_cast
          omega
      · rw [pstep_atom text ⟨base, opens⟩ t h1 h2]
        set s3 := appendCur ⟨base, opens⟩
          (setSource (createAtom t.text) (listExtract text t.tstart t.tstop)) with hs3
        obtain ⟨s2, hs2, hlen⟩ := ih s3.base s3.opens (fun k => by
          have hk := h (k + 1)
          have hl : s3.opens.length = opens.length := appendCur_opens_length _ _
          simp only [List.take_succ_cons, depthSum, tokDepth, if_neg h1, if_neg h2] at hk
          rw [hl]
          omega)
        refine ⟨s2, hs2, ?_⟩
        rw [hlen]
        have hl : s3.opens.length = opens.length := appendCur_opens_length _ _
        rw [hl]
        simp only [depthSum, tokDepth, if_neg h1, if_neg h2]
        omega

lemma prun_err_of_neg (ts : List Tok) (text : List Char) (base : List ASTNode)
    (opens : List (List ASTNode × Nat))
    (h : ∃ k, (opens.length : Int) + depthSum (ts.take k) < 0) :
    prun text ts ⟨base, opens⟩ = .error .unmatchedClose := by
  induction ts generalizing base opens with
  | nil =>
    exfalso
    obtain ⟨k, hk⟩ := h
    simp [depthSum] at hk
    omega
  | cons t ts ih =>
    obtain ⟨k, hk⟩ := h
    cases k with
    | zero =>
      exfalso
      simp [depthSum] at hk
      omega
    | succ k2 =>
      rw [prun_cons]
      by_cases h1 : t.text = ['(']
      · rw [pstep_open text ⟨base, opens⟩ t h1]
        refine ih base (([], t.tstart) :: opens) ⟨k2, ?_⟩
        simp only [List.take_succ_cons, depthSum, tokDepth, if_pos h1,
          List.length_cons] at hk ⊢
        push_cast at hk ⊢
        omega
      · by_cases h2 : t.text = [')']
        · cases opens with
          | nil => rw [pstep_close_err text base t h1 h2]
          | cons fr r =>
            obtain ⟨f, aSt⟩ := fr
            rw [pstep_close text base f aSt r t h1 h2]
            set s3 := appendCur ⟨base, r⟩
              (setSource (closeFrame f) (listExtract text aSt t.tstop)) with hs3
            have hl : s3.opens.length = r.length := appendCur_opens_length _ _
            have hgoal := ih s3.base s3.opens ⟨k2, by
              rw [hl]
              simp only [List.take_succ_cons, depthSum, tokDepth, if_neg h1, if_pos h2,
                List.length_cons] at hk ⊢
              push_cast at hk ⊢
              omega⟩
            exact hgoal
        · rw [pstep_atom text ⟨base, opens⟩ t h1 h2]
          set s3 := appendCur ⟨base, opens⟩
            (setSource (createAtom t.text) (listExtract text t.tstart t.tstop)) with hs3
          have hl : s3.opens.length = opens.length := appendCur_opens_length _ _
          refine ih s3.base s3.opens ⟨k2, ?_⟩
          rw [hl]
          simp only [List.take_succ_cons, depthSum, tokDepth, if_neg h1, if_neg h2] at hk ⊢
          omega

/-- Claim C5: the parser raises UnmatchedCloseParen exactly when some
prefix of the token stream closes more lists than it has opened (a close
paren with no open frame); it raises UnclosedOpenParen exactly when no
such prefix exists but opens and closes do not cancel (frames left open
at end of stream); it succeeds exactly on balanced streams. -/
theorem c5_paren_balance (text : List Char) :
    (parse (tokenize text) text = Except.error ParseErr.unmatchedClose ↔
        ∃ k, depthSum ((tokenize text).take k) < 0) ∧
      (parse (tokenize text) text = Except.error ParseErr.unclosedOpen ↔
        ((∀ k, 0 ≤ depthSum ((tokenize text).take k)) ∧ depthSum (tokenize text) ≠ 0)) ∧
      ((∃ ns, parse (tokenize text) text = Except.ok ns) ↔
        ((∀ k, 0 ≤ depthSum ((tokenize text).take k)) ∧ depthSum (tokenize text) = 0)) := by
  by_cases hneg : ∃ k, depthSum ((tokenize text).take k) < 0
  · obtain ⟨k, hk⟩ := hneg
    have herr : prun text (tokenize text) ⟨[], []⟩ = .error .unmatchedClose :=
      prun_err_of_neg _ text [] [] ⟨k, by simpa using hk⟩
    have hparse : parse (tokenize text) text = .error .unmatchedClose := by
      unfold parse
      rw [herr]
    refine ⟨⟨fun _ => ⟨k, hk⟩, fun _ => hparse⟩, ⟨?_, ?_⟩, ⟨?_, ?_⟩⟩
    · intro hcon
      rw [hparse] at hcon
      cases hcon
    · rintro ⟨hnn, -⟩
      exact absurd hk (not_lt.mpr (hnn k))
    · rintro ⟨ns, hns⟩
      rw [hparse] at hns
      cases hns
    · rintro ⟨hnn, -⟩
      exact absurd hk (not_lt.mpr (hnn k))
  · push_neg at hneg
    have hnn : ∀ k, 0 ≤ depthSum ((tokenize text).take k) := fun k => hneg k
    obtain ⟨s2, hok, hlen⟩ := prun_ok_of_nonneg (tokenize text) text [] []
      (fun k => by simpa using hnn k)
    simp only [List.length_nil, Nat.cast_zero, zero_add] at hlen
    by_cases htot : depthSum (tokenize text) = 0
    · have hopens : s2.opens = [] := by
        rw [htot] at hlen
        exact List.length_eq_zero.mp (by exact_mod_cast hlen)
      have hparse : parse (tokenize text) text = .ok s2.base := by
        unfold parse
        rw [hok]
        simp [hopens]
      refine ⟨⟨?_, ?_⟩, ⟨?_, ?_⟩, ⟨fun _ => ⟨hnn, htot⟩, fun _ => ⟨s2.base, hparse⟩⟩⟩
      · intro hcon
        rw [hparse] at hcon
        cases hcon
      · rintro ⟨k, hk⟩
        exact absurd hk (not_lt.mpr (hnn k))
      · intro hcon
        rw [hparse] at hcon
        cases hcon
      · rintro ⟨-, hz⟩
        exact absurd htot hz
    · have hopens : s2.opens ≠ [] := by
        intro hc
        rw [hc] at hlen
        simp at hlen
        exact htot hlen.symm
      have hparse : parse (tokenize text) text = .error .unclosedOpen := by
        unfold parse
        rw [hok]
        have hemp : s2.opens.isEmpty = false := by
          cases hco : s2.opens with
          | nil => exact absurd hco hopens
          | cons a b => rfl
        show (if s2.opens.isEmpty then Except.ok s2.base
            else Except.error ParseErr.unclosedOpen) = Except.error ParseErr.unclosedOpen
        rw [hemp]
        rfl
      refine ⟨⟨?_, ?_⟩, ⟨fun _ => ⟨hnn, htot⟩, fun _ => hparse⟩, ⟨?_, ?_⟩⟩
      · intro hcon
        rw [hparse] at hcon
        cases hcon
      · rintro ⟨k, hk⟩
        exact absurd hk (not_lt.mpr (hnn k))
      · rintro ⟨ns, hns⟩
        rw [hparse] at hns
        cases hns
      · rintro ⟨-, hz⟩
        exact absurd hz htot

lemma allNodesL_append (l1 l2 : List ASTNode) :
    allNodesL (l1 ++ l2) = allNodesL l1 ++ allNodesL l2 := by
  induction l1 with
  | nil => simp [allNodesL]
  | cons n tl ih => simp [allNodesL, ih]

lemma allNodes_eq (n : ASTNode) : allNodes n = n :: allNodesL (childrenOf n) := by
  cases n <;> simp [allNodes, childrenOf, allNodesL]

lemma childrenOf_setSource (n : ASTNode) (s : List Char) :
    childrenOf (setSource n s) = childrenOf n := by
  cases n <;> rfl

lemma createAtom_cases (t : List Char) :
    createAtom t = ASTNode.str t t none ∨
      createAtom t = ASTNode.var (if t.head? = some '?' then t.drop 1 else t) none ∨
      (∃ b, createAtom t = ASTNode.boolean b t none) ∨
      (∃ k, createAtom t = ASTNode.oper k [] none) ∨
      createAtom t = ASTNode.num t none ∨
      createAtom t = ASTNode.symbol t none := by
  unfold createAtom mkVariable
  by_cases h1 : (t.head? = some '"' || t.head? = some backquote) = true
  · rw [if_pos h1]
    exact Or.inl rfl
  · rw [if_neg h1]
    by_cases h2 : t.head? = some '?'
    · rw [if_pos h2]
      exact Or.inr (Or.inl rfl)
    · rw [if_neg h2]
      by_cases h3 : t = ("true".toList)
      · rw [if_pos h3]
        exact Or.inr (Or.inr (Or.inl ⟨true, rfl⟩))
      · rw [if_neg h3]
        by_cases h4 : t = ("false".toList)
        · rw [if_pos h4]
          exact Or.inr (Or.inr (Or.inl ⟨false, rfl⟩))
        · rw [if_neg h4]
          by_cases h5 : t = ("=>".toList)
          · rw [if_pos h5]
            exact Or.inr (Or.inr (Or.inr (Or.inl ⟨.conditional, rfl⟩)))
          · rw [if_neg h5]
            by_cases h6 : t = ("<=>".toList)
            · rw [if_pos h6]
              exact Or.inr (Or.inr (Or.inr (Or.inl ⟨.biconditional, rfl⟩)))
            · rw [if_neg h6]
              by_cases h7 : t = ("and".toList)
              · rw [if_pos h7]
                exact Or.inr (Or.inr (Or.inr (Or.inl ⟨.andK, rfl⟩)))
              · rw [if_neg h7]
                by_cases h8 : t = ("or".toList)
                · rw [if_pos h8]
                  exact Or.inr (Or.inr (Or.inr (Or.inl ⟨.orK, rfl⟩)))
                · rw [if_neg h8]
                  by_cases h9 : t = ("not".toList)
                  · rw [if_pos h9]
                    exact Or.inr (Or.inr (Or.inr (Or.inl ⟨.notK, rfl⟩)))
                  · rw [if_neg h9]
                    by_cases h10 : t = ("exists".toList)
                    · rw [if_pos h10]
                      exact Or.inr (Or.inr (Or.inr (Or.inl ⟨.existsK, rfl⟩)))
                    · rw [if_neg h10]
                      by_cases h11 : t = ("=".toList)
                      · rw [if_pos h11]
                        exact Or.inr (Or.inr (Or.inr (Or.inl ⟨.eqK, rfl⟩)))
                      · rw [if_neg h11]
                        by_cases h12 : t = ("forall".toList)
                        · rw [if_pos h12]
                          exact Or.inr (Or.inr (Or.inr (Or.inl ⟨.forAllK, rfl⟩)))
                        · rw [if_neg h12]
                          by_cases h13 : pyFloatAccepts t = true
                          · rw [if_pos h13]
                            exact Or.inr (Or.inr (Or.inr (Or.inr (Or.inl rfl))))
                          · rw [if_neg h13]
                            exact Or.inr (Or.inr (Or.inr (Or.inr (Or.inr rfl))))

lemma createAtom_ne_expr (t : List Char) (ch : List ASTNode) (s : Option (List Char)) :
    createAtom t ≠ ASTNode.expr ch s := by
  rcases createAtom_cases t with h | h | ⟨b, h⟩ | ⟨k, h⟩ | h | h <;> rw [h] <;>
    intro hcon <;> cases hcon

lemma createAtom_children (t : List Char) : childrenOf (createAtom t) = [] := by
  rcases createAtom_cases t with h | h | ⟨b, h⟩ | ⟨k, h⟩ | h | h <;> rw [h] <;> rfl

lemma setSource_ne_expr (n : ASTNode) (sx : List Char)
    (h : ∀ ch s, n ≠ ASTNode.expr ch s) (ch : List ASTNode) (s : Option (List Char)) :
    setSource n sx ≠ ASTNode.expr ch s := by
  cases n <;> simp [setSource]
  exact fun hc _ => h _ _ (by rw [hc])

lemma appendCur_inv (s : PState) (node : ASTNode)
    (hb : ∀ n ∈ allNodesL s.base, notOperHeaded n)
    (ho : ∀ fr ∈ s.opens, ∀ n ∈ allNodesL fr.1, notOperHeaded n)
    (hnode : ∀ n ∈ allNodes node, notOperHeaded n) :
    (∀ n ∈ allNodesL (appendCur s node).base, notOperHeaded n) ∧
      (∀ fr ∈ (appendCur s node).opens, ∀ n ∈ allNodesL fr.1, notOperHeaded n) := by
  obtain ⟨b, os⟩ := s
  cases os with
  | nil =>
    refine ⟨?_, by intro fr hfr; simp [appendCur] at hfr⟩
    intro n hn
    simp only [appendCur] at hn
    rw [allNodesL_append] at hn
    rcases List.mem_append.mp hn with hn | hn
    · exact hb n hn
    · have : allNodesL [node] = allNodes node ++ [] := by simp [allNodesL]
      rw [this, List.append_nil] at hn
      exact hnode n hn
  | cons fr2 os2 =>
    obtain ⟨g, y⟩ := fr2
    refine ⟨fun n hn => hb n hn, ?_⟩
    intro fr hfr n hn
    simp only [appendCur] at hfr
    rcases List.mem_cons.mp hfr with hfr | hfr
    · subst hfr
      simp only at hn
      rw [allNodesL_append] at hn
      rcases List.mem_append.mp hn with hn | hn
      · exact ho (g, y) (List.mem_cons_self _ _) n hn
      · have : allNodesL [node] = allNodes node ++ [] := by simp [allNodesL]
        rw [this, List.append_nil] at hn
        exact hnode n hn
    · exact ho fr (List.mem_cons_of_mem _ hfr) n hn

lemma closeFrame_node_inv (f : List ASTNode) (sx : List Char)
    (hf : ∀ n ∈ allNodesL f, notOperHeaded n) :
    ∀ n ∈ allNodes (setSource (closeFrame f) sx), notOperHeaded n := by
  intro n hn
  cases f with
  | nil =>
    simp only [closeFrame, setSource, allNodes, allNodesL] at hn
    rcases List.mem_singleton.mp hn with rfl
    intro ch s he k cs s2
    injection he with hch hs
    subst hch
    simp
  | cons hd rest =>
    cases hd with
    | oper k0 cs0 s0 =>
      simp only [closeFrame, setSource] at hn
      rw [allNodes_eq] at hn
      rcases List.mem_cons.mp hn with rfl | hn
      · intro ch s he
        cases he
      · have hrest : ∀ m ∈ allNodesL rest, notOperHeaded m := by
          intro m hm
          apply hf
          simp only [allNodesL]
          exact List.mem_append.mpr (Or.inr hm)
        exact hrest n (by simpa [childrenOf] using hn)
    | str a b c =>
      simp only [closeFrame, setSource] at hn
      rw [allNodes_eq] at hn
      rcases List.mem_cons.mp hn with rfl | hn
      · intro ch s he k cs s2
        injection he with hch hs
        subst hch
        simp
      · exact hf n (by simpa [childrenOf] using hn)
    | num a b =>
      simp only [closeFrame, setSource] at hn
      rw [allNodes_eq] at hn
      rcases List.mem_cons.mp hn with rfl | hn
      · intro ch s he k cs s2
        injection he with hch hs
        subst hch
        simp
      · exact hf n (by simpa [childrenOf] using hn)
    | boolean a b c =>
      simp only [closeFrame, setSource] at hn
      rw [allNodes_eq] at hn
      rcases List.mem_cons.mp hn with rfl | hn
      · intro ch s he k cs s2
        injection he with hch hs
        subst hch
        simp
      · exact hf n (by simpa [childrenOf] using hn)
    | symbol a b =>
      simp only [closeFrame, setSource] at hn
      rw [allNodes_eq] at hn
      rcases List.mem_cons.mp hn with rfl | hn
      · intro ch s he k cs s2
        injection he with hch hs
        subst hch
        simp
      · exact hf n (by simpa [childrenOf] using hn)
    | var a b =>
      simp only [closeFrame, setSource] at hn
      rw [allNodes_eq] at hn
      rcases List.mem_cons.mp hn with rfl | hn
      · intro ch s he k cs s2
        injection he with hch hs
        subst hch
        simp
      · exact hf n (by simpa [childrenOf] using hn)
    | expr a b =>
      simp only [closeFrame, setSource] at hn
      rw [allNodes_eq] at hn
      rcases List.mem_cons.mp hn with rfl | hn
      · intro ch s he k cs s2
        injection he with hch hs
        subst hch
        simp
      · exact hf n (by simpa [childrenOf] using hn)

lemma atom_node_inv (t : List Char) (sx : List Char) :
    ∀ n ∈ allNodes (setSource (createAtom t) sx), notOperHeaded n := by
  intro n hn
  rw [allNodes_eq, childrenOf_setSource, createAtom_children] at hn
  rcases List.mem_cons.mp hn with rfl | hn
  · intro ch s he
    exact absurd he (setSource_ne_expr _ _ (fun ch2 s2 => createAtom_ne_expr t ch2 s2) ch s)
  · simp [allNodesL] at hn

lemma prun_notOperHeaded (text : List Char) (ts : List Tok) :
    ∀ (s s2 : PState), prun text ts s = .ok s2 →
      (∀ n ∈ allNodesL s.base, notOperHeaded n) →
      (∀ fr ∈ s.opens, ∀ n ∈ allNodesL fr.1, notOperHeaded n) →
      (∀ n ∈ allNodesL s2.base, notOperHeaded n) ∧
        (∀ fr ∈ s2.opens, ∀ n ∈ allNodesL fr.1, notOperHeaded n) := by
  induction ts with
  | nil =>
    intro s s2 hr hb ho
    rw [prun_nil] at hr
    cases hr
    exact ⟨hb, ho⟩
  | cons t ts ih =>
    intro s s2 hr hb ho
    rw [prun_cons] at hr
    by_cases h1 : t.text = ['(']
    · rw [pstep_open text s t h1] at hr
      refine ih _ s2 hr hb ?_
      intro fr hfr n hn
      rcases List.mem_cons.mp hfr with hfr | hfr
      · subst hfr
        simp [allNodesL] at hn
      · exact ho fr hfr n hn
    · by_cases h2 : t.text = [')']
      · obtain ⟨b, os⟩ := s
        cases os with
        | nil =>
          rw [pstep_close_err text b t h1 h2] at hr
          cases hr
        | cons fr r =>
          obtain ⟨f, aSt⟩ := fr
          rw [pstep_close text b f aSt r t h1 h2] at hr
          have hf : ∀ n ∈ allNodesL f, notOperHeaded n :=
            ho (f, aSt) (List.mem_cons_self _ _)
          have hrest : ∀ fr2 ∈ r, ∀ n ∈ allNodesL fr2.1, notOperHeaded n :=
            fun fr2 hfr2 => ho fr2 (List.mem_cons_of_mem _ hfr2)
          obtain ⟨hb2, ho2⟩ := appendCur_inv ⟨b, r⟩ _ hb hrest
            (closeFrame_node_inv f _ hf)
          exact ih _ s2 hr hb2 ho2
      · rw [pstep_atom text s t h1 h2] at hr
        obtain ⟨hb2, ho2⟩ := appendCur_inv s _ hb ho (atom_node_inv t.text _)
        exact ih _ s2 hr hb2 ho2

/-- Claim C3, amended: the tree builder promotes whenever the popped
frame's first accumulated child is an Operator instance, whether a
classifier-produced leaf or an already-promoted operator expression
(whose children are then overwritten by the remaining elements);
consequently no generic Expression node anywhere in a successful parse
result has an Operator as its first child. -/
theorem c3_promotion_on_operator_head (text : List Char) (ns : List ASTNode)
    (h : parse (tokenize text) text = Except.ok ns) :
    ∀ n ∈ allNodesL ns, notOperHeaded n := by
  rcases parse_out (tokenize text) text with ⟨e, hp, _, hc⟩ | ⟨s, hp, hop, hc⟩ | ⟨s, hp, _, hc⟩
  · rw [hc] at h
    cases h
  · rw [hc] at h
    have hbase : s.base = ns := Except.ok.inj h
    subst hbase
    exact (prun_notOperHeaded text (tokenize text) ⟨[], []⟩ s hp
      (by intro n hn; simp [allNodesL] at hn)
      (by intro fr hfr; simp at hfr)).1
  · rw [hc] at h
    cases h

/-- Witness for C3 at a concrete input: the Expression produced for a
plain two-symbol list has no Operator first child. -/
theorem c3_promotion_witness :
    ([ASTNode.symbol ['a'] (some ['a']),
        ASTNode.symbol ['b'] (some ['b'])] : List ASTNode).head? ≠
      some (ASTNode.oper OpKind.andK [] none) :=
  c3_promotion_on_operator_head ("(a b)".toList)
    [ASTNode.expr [ASTNode.symbol ['a'] (some ['a']), ASTNode.symbol ['b'] (some ['b'])]
      (some ("(a b)".toList))] rfl
    (ASTNode.expr [ASTNode.symbol ['a'] (some ['a']), ASTNode.symbol ['b'] (some ['b'])]
      (some ("(a b)".toList)))
    (List.mem_cons_self _ _)
    [ASTNode.symbol ['a'] (some ['a']), ASTNode.symbol ['b'] (some ['b'])]
    (some ("(a b)".toList)) rfl OpKind.andK [] none

lemma listExtract_drop (l : List Char) (k x y : Nat) (hx : k ≤ x) (hy : k ≤ y) :
    listExtract (l.drop k) (x - k) (y - k) = listExtract l x y := by
  unfold listExtract
  rw [List.take_drop, Nat.add_sub_cancel' hy, List.drop_drop, Nat.add_sub_cancel' hx]

lemma listExtract_extract (cs : List Char) (a b x y : Nat) (hax : a ≤ x) (hay : a ≤ y)
    (hyb : y ≤ b) :
    listExtract (listExtract cs a b) (x - a) (y - a) = listExtract cs x y := by
  unfold listExtract
  rw [List.take_drop, Nat.add_sub_cancel' hay, List.take_take,
    Nat.min_eq_left hyb, List.drop_drop, Nat.add_sub_cancel' hax]

lemma listExtract_self (l : List Char) : listExtract l 0 l.length = l := by
  simp [listExtract]

lemma listExtract_len (l : List Char) (a b : Nat) (hb : b ≤ l.length) :
    (listExtract l a b).length = b - a := by
  simp [listExtract, Nat.min_eq_left hb]

lemma listExtract_eq_drop_take (l : List Char) (a b : Nat) (h : a ≤ b) :
    (l.drop a).take (b - a) = listExtract l a b := by
  unfold listExtract
  rw [List.take_drop, Nat.add_sub_cancel' h]

lemma sourceTextOf_setSource (n : ASTNode) (s : List Char) :
    sourceTextOf (setSource n s) = some s := by
  cases n <;> rfl

lemma setSource_oper_shape (n : ASTNode) (sx : List Char) (k : OpKind) (ch : List ASTNode)
    (s2 : Option (List Char)) (h : setSource n sx = ASTNode.oper k ch s2) :
    ∃ s0, n = ASTNode.oper k ch s0 := by
  cases n <;> simp [setSource] at h
  obtain ⟨hk, hch, _⟩ := h
  exact ⟨_, by rw [hk, hch]⟩

lemma take_one_head (l : List Char) (x : Char) (h : l.take 1 = [x]) : l.head? = some x := by
  cases l with
  | nil => simp at h
  | cons a t =>
    simp [List.take_succ_cons] at h
    simp [h]

lemma drop_singleton_getLast (l : List Char) (k : Nat) (x : Char) (h : l.drop k = [x]) :
    l.getLast? = some x := by
  induction l generalizing k with
  | nil => simp at h
  | cons a t ih =>
    cases k with
    | zero =>
      simp at h
      obtain ⟨rfl, rfl⟩ := h
      rfl
    | succ k2 =>
      rw [List.drop_succ_cons] at h
      cases t with
      | nil => simp at h
      | cons b l2 =>
        rw [List.getLast?_cons_cons]
        exact ih k2 h

lemma takeWhile_take (l : List Char) (q : Char → Bool) (m : Nat) :
    (l.take m).takeWhile q = (l.takeWhile q).take m := by
  induction l generalizing m with
  | nil => simp
  | cons a t ih =>
    cases m with
    | zero => simp
    | succ m2 =>
      rw [List.take_succ_cons, List.takeWhile_cons]
      by_cases h : q a
      · rw [if_pos h, List.takeWhile_cons, if_pos h, List.take_succ_cons, ih]
      · rw [if_neg h, List.takeWhile_cons, if_neg h, List.take_nil]

lemma take_takeWhile_len (l : List Char) (q : Char → Bool) :
    l.take ((l.takeWhile q).length) = l.takeWhile q :=
  (List.prefix_iff_eq_take.mp (List.takeWhile_prefix q)).symm

lemma findIdx?_some_facts (l : List Char) (j : Nat)
    (h : l.findIdx? (fun d => d = '"') = some j) :
    j < l.length ∧ ∃ (hj : j < l.length), l.get ⟨j, hj⟩ = '"' ∧ '"' ∉ l.take j := by
  rw [List.findIdx?_eq_some_iff_findIdx_eq] at h
  obtain ⟨hlen, hidx⟩ := h
  refine ⟨hlen, hlen, ?_, ?_⟩
  · have := (List.findIdx_eq hlen).mp hidx
    have h2 := this.1
    simpa [List.get_eq_getElem] using of_decide_eq_true h2
  · intro hmem
    obtain ⟨i, hi, hgi⟩ := List.mem_iff_getElem.mp hmem
    have hij : i < j := by
      have := List.length_take j l
      omega
    have hfail := ((List.findIdx_eq hlen).mp hidx).2 i hij
    rw [List.getElem_take] at hgi
    rw [hgi] at hfail
    simp at hfail

lemma findIdx?_take_some (l : List Char) (j m : Nat)
    (h : l.findIdx? (fun d => d = '"') = some j) (hm : j < m) :
    (l.take m).findIdx? (fun d => d = '"') = some j := by
  rw [List.findIdx?_eq_some_iff_findIdx_eq] at h ⊢
  obtain ⟨hlen, hidx⟩ := h
  have hjt : j < (l.take m).length := by
    rw [List.length_take]
    omega
  refine ⟨hjt, ?_⟩
  rw [List.findIdx_eq hjt]
  have hall := (List.findIdx_eq hlen).mp hidx
  constructor
  · rw [List.getElem_take]
    exact hall.1
  · intro i hij
    rw [List.getElem_take]
    exact hall.2 i hij

lemma findIdx?_take_none (l : List Char) (m : Nat)
    (h : l.findIdx? (fun d => d = '"') = none) :
    (l.take m).findIdx? (fun d => d = '"') = none := by
  rw [List.findIdx?_eq_none_iff] at h ⊢
  intro x hx
  exact h x (List.mem_of_mem_take hx)

lemma mem_take_of_findIdx?_none (l : List Char)
    (h : l.findIdx? (fun d => d = '"') = none) : '"' ∉ l := by
  rw [List.findIdx?_eq_none_iff] at h
  intro hmem
  simpa using h '"' hmem

lemma findIdx?_append_quote (mid : List Char) (h : '"' ∉ mid) :
    (mid ++ ['"']).findIdx? (fun d => d = '"') = some mid.length := by
  induction mid with
  | nil => rfl
  | cons a t ih =>
    have ha : a ≠ '"' := fun hc => h (by rw [hc]; exact List.mem_cons_self _ _)
    have ht : '"' ∉ t := fun hc => h (List.mem_cons_of_mem _ hc)
    rw [List.cons_append, List.findIdx?_cons]
    rw [if_neg (by simp [ha])]
    rw [List.findIdx?_succ, ih ht]
    rfl

lemma getElem_append_cons (l1 : List Tok) (u : Tok) (l2 : List Tok)
    (h : l1.length < (l1 ++ u :: l2).length) :
    (l1 ++ u :: l2).get ⟨l1.length, h⟩ = u := by
  induction l1 with
  | nil => rfl
  | cons a t ih => exact ih (by simp)

lemma take_append_cons (l1 : List Tok) (u : Tok) (l2 : List Tok) :
    (l1 ++ u :: l2).take (l1.length + 1) = l1 ++ [u] := by
  induction l1 with
  | nil => rfl
  | cons a t ih => simp [List.take_succ_cons, ih]

lemma scant_fuel (f1 : Nat) : ∀ (f2 : Nat) (cs : List Char) (p : Nat),
    cs.length < f1 → cs.length < f2 → scant f1 cs p = scant f2 cs p := by
  induction f1 with
  | zero =>
    intro f2 cs p h1 h2
    omega
  | succ f1 ih =>
    intro f2 cs p h1 h2
    cases cs with
    | nil =>
      cases f2 with
      | zero => omega
      | succ f2 => rfl
    | cons c rest =>
      cases f2 with
      | zero => omega
      | succ f2 =>
        simp only [scant]
        simp only [List.length_cons] at h1 h2
        by_cases hw : isWsChar c = true
        · rw [if_pos hw, if_pos hw]
          exact ih f2 rest (p + 1) (by omega) (by omega)
        · rw [if_neg hw, if_neg hw]
          by_cases hsc : c = ';'
          · rw [if_pos hsc, if_pos hsc]
            exact ih f2 _ _ (by simp [List.length_drop]; omega) (by simp [List.length_drop]; omega)
          · rw [if_neg hsc, if_neg hsc]
            by_cases hlp : c = '('
            · rw [if_pos hlp, if_pos hlp]
              exact congrArg _ (ih f2 rest (p + 1) (by omega) (by omega))
            · rw [if_neg hlp, if_neg hlp]
              by_cases hrp : c = ')'
              · rw [if_pos hrp, if_pos hrp]
                exact congrArg _ (ih f2 rest (p + 1) (by omega) (by omega))
              · rw [if_neg hrp, if_neg hrp]
                by_cases hq : c = '"'
                · rw [if_pos hq, if_pos hq]
                  cases hfi : rest.findIdx? (fun d => d = '"') with
                  | some j =>
                    refine congrArg (List.cons _) (ih f2 _ _ ?_ ?_) <;>
                      simp [List.length_drop] <;> omega
                  | none =>
                    refine congrArg (List.cons _) (ih f2 _ _ ?_ ?_) <;>
                      simp [List.length_drop] <;> omega
                · rw [if_neg hq, if_neg hq]
                  refine congrArg _ (ih f2 _ _ ?_ ?_) <;> simp [List.length_drop] <;> omega

lemma scanT_nil (p : Nat) : scanT [] p = [] := rfl

lemma scanT_ws (c : Char) (rest : List Char) (p : Nat) (h : isWsChar c = true) :
    scanT (c :: rest) p = scanT rest (p + 1) := by
  show scant (rest.length + 1 + 1) (c :: rest) p = scant (rest.length + 1) rest (p + 1)
  rw [scant, if_pos h]

lemma scanT_comment (c : Char) (rest : List Char) (p : Nat) (h1 : isWsChar c = false)
    (h2 : c = ';') :
    scanT (c :: rest) p =
      scanT (rest.drop ((rest.takeWhile (fun d => d ≠ '\n')).length))
        (p + 1 + (rest.takeWhile (fun d => d ≠ '\n')).length) := by
  show scant (rest.length + 1 + 1) (c :: rest) p = _
  rw [scant, if_neg (by simp [h1]), if_pos h2]
  exact scant_fuel (rest.length + 1) _ _ _ (by simp [List.length_drop]; omega)
    (by omega)

lemma scanT_lparen (c : Char) (rest : List Char) (p : Nat) (h1 : isWsChar c = false)
    (h2 : c ≠ ';') (h3 : c = '(') :
    scanT (c :: rest) p = ⟨['('], p, p + 1⟩ :: scanT rest (p + 1) := by
  show scant (rest.length + 1 + 1) (c :: rest) p = _
  rw [scant, if_neg (by simp [h1]), if_neg h2, if_pos h3]
  rfl

lemma scanT_rparen (c : Char) (rest : List Char) (p : Nat) (h1 : isWsChar c = false)
    (h2 : c ≠ ';') (h3 : c ≠ '(') (h4 : c = ')') :
    scanT (c :: rest) p = ⟨[')'], p, p + 1⟩ :: scanT rest (p + 1) := by
  show scant (rest.length + 1 + 1) (c :: rest) p = _
  rw [scant, if_neg (by simp [h1]), if_neg h2, if_neg h3, if_pos h4]
  rfl

lemma scanT_string (c : Char) (rest : List Char) (p : Nat) (h1 : isWsChar c = false)
    (h2 : c ≠ ';') (h3 : c ≠ '(') (h4 : c ≠ ')') (h5 : c = '"') (j : Nat)
    (hj : rest.findIdx? (fun d => d = '"') = some j) :
    scanT (c :: rest) p =
      ⟨'"' :: (rest.take j ++ ['"']), p, p + j + 2⟩ ::
        scanT (rest.drop (j + 1)) (p + j + 2) := by
  show scant (rest.length + 1 + 1) (c :: rest) p = _
  rw [scant, if_neg (by simp [h1]), if_neg h2, if_neg h3, if_neg h4, if_pos h5, hj]
  exact congrArg _ (scant_fuel (rest.length + 1) _ _ _
    (by simp [List.length_drop]; omega) (by omega))

lemma scanT_fallback (c : Char) (rest : List Char) (p : Nat) (h1 : isWsChar c = false)
    (h2 : c ≠ ';') (h3 : c ≠ '(') (h4 : c ≠ ')') (h5 : c = '"')
    (hj : rest.findIdx? (fun d => d = '"') = none) :
    scanT (c :: rest) p =
      ⟨(c :: rest).takeWhile isAtomChar, p, p + ((c :: rest).takeWhile isAtomChar).length⟩ ::
        scanT (rest.drop (((c :: rest).takeWhile isAtomChar).length - 1))
          (p + ((c :: rest).takeWhile isAtomChar).length) := by
  show scant (rest.length + 1 + 1) (c :: rest) p = _
  rw [scant, if_neg (by simp [h1]), if_neg h2, if_neg h3, if_neg h4, if_pos h5, hj]
  exact congrArg _ (scant_fuel (rest.length + 1) _ _ _
    (by simp [List.length_drop]; omega) (by omega))

lemma scanT_atom (c : Char) (rest : List Char) (p : Nat) (h1 : isWsChar c = false)
    (h2 : c ≠ ';') (h3 : c ≠ '(') (h4 : c ≠ ')') (h5 : c ≠ '"') :
    scanT (c :: rest) p =
      ⟨(c :: rest).takeWhile isAtomChar, p, p + ((c :: rest).takeWhile isAtomChar).length⟩ ::
        scanT (rest.drop (((c :: rest).takeWhile isAtomChar).length - 1))
          (p + ((c :: rest).takeWhile isAtomChar).length) := by
  show scant (rest.length + 1 + 1) (c :: rest) p = _
  rw [scant, if_neg (by simp [h1]), if_neg h2, if_neg h3, if_neg h4, if_neg h5]
  exact congrArg _ (scant_fuel (rest.length + 1) _ _ _
    (by simp [List.length_drop]; omega) (by omega))

lemma drop_cons_of_pos (c : Char) (rest : List Char) (k : Nat) (h : 1 ≤ k) :
    (c :: rest).drop k = rest.drop (k - 1) := by
  cases k with
  | zero => omega
  | succ k2 =>
    rw [List.drop_succ_cons]
    simp

lemma main_shift_step (cs2 : List Char) (c : Char) (rest : List Char) (p k : Nat) (t : Tok)
    (hcs2 : (c :: rest).drop k = cs2) (hk : 1 ≤ k) (hk2 : k ≤ rest.length + 1)
    (H : p + k ≤ t.tstart ∧ t.tstart < t.tstop ∧ t.tstop ≤ p + k + cs2.length ∧
      t.text = listExtract cs2 (t.tstart - (p + k)) (t.tstop - (p + k)) ∧
      t.text.length = t.tstop - t.tstart ∧ TokWf t) :
    p ≤ t.tstart ∧ t.tstart < t.tstop ∧ t.tstop ≤ p + (c :: rest).length ∧
      t.text = listExtract (c :: rest) (t.tstart - p) (t.tstop - p) ∧
      t.text.length = t.tstop - t.tstart ∧ TokWf t := by
  obtain ⟨ha, hb, hc2, hd, he, hf⟩ := H
  have hlen : cs2.length = (c :: rest).length - k := by
    rw [← hcs2]
    simp [List.length_drop]
  simp only [List.length_cons] at hlen
  refine ⟨by omega, hb, by simp only [List.length_cons]; omega, ?_, he, hf⟩
  rw [hd, ← hcs2]
  have e1 : t.tstart - (p + k) = (t.tstart - p) - k := by omega
  have e2 : t.tstop - (p + k) = (t.tstop - p) - k := by omega
  rw [e1, e2]
  exact listExtract_drop (c :: rest) k _ _ (by omega) (by omega)

theorem scanT_main (cs : List Char) (p : Nat) :
    ∀ t ∈ scanT cs p, p ≤ t.tstart ∧ t.tstart < t.tstop ∧ t.tstop ≤ p + cs.length ∧
      t.text = listExtract cs (t.tstart - p) (t.tstop - p) ∧
      t.text.length = t.tstop - t.tstart ∧ TokWf t := by
  intro t ht
  match cs with
  | [] =>
    rw [scanT_nil] at ht
    simp at ht
  | c :: rest =>
    by_cases hw : isWsChar c = true
    · rw [scanT_ws c rest p hw] at ht
      exact main_shift_step rest c rest p 1 t rfl (le_refl 1) (by omega)
        (by rw [Nat.add_comm p 1, Nat.add_comm 1 p] at *
            exact scanT_main rest (p + 1) t ht)
    · have hw2 : isWsChar c = false := by simpa using hw
      by_cases hsc : c = ';'
      · rw [scanT_comment c rest p hw2 hsc] at ht
        set n := (rest.takeWhile (fun d => d ≠ '\n')).length with hn
        have hnle : n ≤ rest.length := (List.takeWhile_prefix _).length_le
        have IH := scanT_main (rest.drop n) (p + 1 + n) t ht
        refine main_shift_step (rest.drop n) c rest p (1 + n) t ?_ (by omega) (by omega) ?_
        · rw [drop_cons_of_pos c rest (1 + n) (by omega)]
          congr 1
          omega
        · have ha : p + (1 + n) = p + 1 + n := by omega
          rw [ha]
          exact IH
      · by_cases hlp : c = '('
        · rw [scanT_lparen c rest p hw2 hsc hlp] at ht
          rcases List.mem_cons.mp ht with rfl | ht
          · refine ⟨le_refl p, by show p < p + 1; omega, by simp, ?_, by simp, Or.inl rfl⟩
            simp [listExtract, hlp]
          · exact main_shift_step rest c rest p 1 t rfl (le_refl 1) (by omega)
              (by rw [Nat.add_comm p 1, Nat.add_comm 1 p] at *
                  exact scanT_main rest (p + 1) t ht)
        · by_cases hrp : c = ')'
          · rw [scanT_rparen c rest p hw2 hsc hlp hrp] at ht
            rcases List.mem_cons.mp ht with rfl | ht
            · refine ⟨le_refl p, by show p < p + 1; omega, by simp, ?_, by simp,
                Or.inr (Or.inl rfl)⟩
              simp [listExtract, hrp]
            · exact main_shift_step rest c rest p 1 t rfl (le_refl 1) (by omega)
                (by rw [Nat.add_comm p 1, Nat.add_comm 1 p] at *
                    exact scanT_main rest (p + 1) t ht)
          · by_cases hq : c = '"'
            · cases hfi : rest.findIdx? (fun d => d = '"') with
              | some j =>
                rw [scanT_string c rest p hw2 hsc hlp hrp hq j hfi] at ht
                obtain ⟨hjlen, hj, hget, hnot⟩ := findIdx?_some_facts rest j hfi
                rcases List.mem_cons.mp ht with rfl | ht
                · refine ⟨le_refl p, by show p < p + j + 2; omega,
                    by simp only [List.length_cons]; show p + j + 2 ≤ p + (rest.length + 1); omega,
                    ?_, ?_, ?_⟩
                  · show '"' :: (rest.take j ++ ['"']) =
                      listExtract (c :: rest) (p - p) (p + j + 2 - p)
                    have e1 : p - p = 0 := by omega
                    have e2 : p + j + 2 - p = j + 2 := by omega
                    rw [e1, e2]
                    unfold listExtract
                    rw [List.drop_zero, List.take_succ_cons]
                    congr 1
                    · exact hq.symm
                    · rw [List.take_succ]
                      congr 1
                      rw [List.getElem?_eq_getElem hjlen]
                      simp [List.get_eq_getElem] at hget
                      rw [hget]
                      rfl
                  · show ('"' :: (rest.take j ++ ['"'])).length = p + j + 2 - p
                    simp [List.length_take]
                    omega
                  · refine Or.inr (Or.inr (Or.inl ⟨rest.take j, ?_, hnot⟩))
                    rfl
                · have IH := scanT_main (rest.drop (j + 1)) (p + j + 2) t ht
                  refine main_shift_step (rest.drop (j + 1)) c rest p (j + 2) t ?_
                    (by omega) (by omega) ?_
                  · rw [drop_cons_of_pos c rest (j + 2) (by omega)]
                    congr 1
                  · have ha : p + (j + 2) = p + j + 2 := by omega
                    rw [ha]
                    exact IH
              | none =>
                rw [scanT_fallback c rest p hw2 hsc hlp hrp hq hfi] at ht
                have hcA : isAtomChar c = true := by simp [isAtomChar, hw2, hlp, hrp]
                have hrun : (c :: rest).takeWhile isAtomChar =
                    c :: rest.takeWhile isAtomChar := by
                  rw [List.takeWhile_cons, if_pos hcA]
                have hrlen : ((c :: rest).takeWhile isAtomChar).length =
                    (rest.takeWhile isAtomChar).length + 1 := by
                  rw [hrun]
                  rfl
                have hrle : (rest.takeWhile isAtomChar).length ≤ rest.length :=
                  (List.takeWhile_prefix _).length_le
                rcases List.mem_cons.mp ht with rfl | ht
                · refine ⟨le_refl p,
                    by show p < p + ((c :: rest).takeWhile isAtomChar).length
                       rw [hrlen]; omega,
                    by simp only [List.length_cons]
                       show p + ((c :: rest).takeWhile isAtomChar).length ≤ p + (rest.length + 1)
                       rw [hrlen]; omega,
                    ?_, by simp, ?_⟩
                  · show (c :: rest).takeWhile isAtomChar = listExtract (c :: rest)
                      (p - p) (p + ((c :: rest).takeWhile isAtomChar).length - p)
                    have e1 : p - p = 0 := by omega
                    have e2 : p + ((c :: rest).takeWhile isAtomChar).length - p =
                      ((c :: rest).takeWhile isAtomChar).length := by omega
                    rw [e1, e2]
                    unfold listExtract
                    rw [List.drop_zero]
                    exact (take_takeWhile_len (c :: rest) isAtomChar).symm
                  · refine Or.inr (Or.inr (Or.inr ⟨?_, ?_, ?_, ?_⟩))
                    · rw [hrun]
                      simp
                    · intro x hx
                      exact List.mem_takeWhile_imp hx
                    · rw [hrun]
                      simp only [List.head?_cons]
                      rw [hq]
                      simp
                    · intro _ hmem
                      rw [hrun] at hmem
                      simp only [List.tail_cons] at hmem
                      exact mem_take_of_findIdx?_none rest hfi
                        ((List.takeWhile_prefix _).subset hmem)
                · have IH := scanT_main
                    (rest.drop (((c :: rest).takeWhile isAtomChar).length - 1))
                    (p + ((c :: rest).takeWhile isAtomChar).length) t ht
                  have hk1 : 1 ≤ ((c :: rest).takeWhile isAtomChar).length := by
                    rw [hrlen]
                    omega
                  have hk2 : ((c :: rest).takeWhile isAtomChar).length ≤ rest.length + 1 := by
                    rw [hrlen]
                    omega
                  refine main_shift_step
                    (rest.drop (((c :: rest).takeWhile isAtomChar).length - 1)) c rest p
                    (((c :: rest).takeWhile isAtomChar).length) t ?_ hk1 hk2 ?_
                  · rw [drop_cons_of_pos c rest _ hk1]
                  · exact IH
            · rw [scanT_atom c rest p hw2 hsc hlp hrp hq] at ht
              have hcA : isAtomChar c = true := by simp [isAtomChar, hw2, hlp, hrp]
              have hrun : (c :: rest).takeWhile isAtomChar =
                  c :: rest.takeWhile isAtomChar := by
                rw [List.takeWhile_cons, if_pos hcA]
              have hrlen : ((c :: rest).takeWhile isAtomChar).length =
                  (rest.takeWhile isAtomChar).length + 1 := by
                rw [hrun]
                rfl
              have hrle : (rest.takeWhile isAtomChar).length ≤ rest.length :=
                (List.takeWhile_prefix _).length_le
              rcases List.mem_cons.mp ht with rfl | ht
              · refine ⟨le_refl p,
                  by show p < p + ((c :: rest).takeWhile isAtomChar).length
                     rw [hrlen]; omega,
                  by simp only [List.length_cons]
                     show p + ((c :: rest).takeWhile isAtomChar).length ≤ p + (rest.length + 1)
                     rw [hrlen]; omega,
                  ?_, by simp, ?_⟩
                · show (c :: rest).takeWhile isAtomChar = listExtract (c :: rest)
                    (p - p) (p + ((c :: rest).takeWhile isAtomChar).length - p)
                  have e1 : p - p = 0 := by omega
                  have e2 : p + ((c :: rest).takeWhile isAtomChar).length - p =
                    ((c :: rest).takeWhile isAtomChar).length := by omega
                  rw [e1, e2]
                  unfold listExtract
                  rw [List.drop_zero]
                  exact (take_takeWhile_len (c :: rest) isAtomChar).symm
                · refine Or.inr (Or.inr (Or.inr ⟨?_, ?_, ?_, ?_⟩))
                  · rw [hrun]
                    simp
                  · intro x hx
                    exact List.mem_takeWhile_imp hx
                  · rw [hrun]
                    simp only [List.head?_cons]
                    simp [hsc]
                  · rw [hrun]
                    simp only [List.head?_cons]
                    intro hcq
                    exact absurd (Option.some.inj hcq) hq
              · have IH := scanT_main
                  (rest.drop (((c :: rest).takeWhile isAtomChar).length - 1))
                  (p + ((c :: rest).takeWhile isAtomChar).length) t ht
                have hk1 : 1 ≤ ((c :: rest).takeWhile isAtomChar).length := by
                  rw [hrlen]
                  omega
                have hk2 : ((c :: rest).takeWhile isAtomChar).length ≤ rest.length + 1 := by
                  rw [hrlen]
                  omega
                refine main_shift_step
                  (rest.drop (((c :: rest).takeWhile isAtomChar).length - 1)) c rest p
                  (((c :: rest).takeWhile isAtomChar).length) t ?_ hk1 hk2 ?_
                · rw [drop_cons_of_pos c rest _ hk1]
                · exact IH
termination_by cs.length
decreasing_by all_goals simp [List.length_drop] <;> omega

lemma take_cons_of_pos (c : Char) (rest : List Char) (k : Nat) (h : 1 ≤ k) :
    (c :: rest).take k = c :: rest.take (k - 1) := by
  cases k with
  | zero => omega
  | succ k2 =>
    rw [List.take_succ_cons]
    simp

lemma tok_bounds (cs : List Char) (p : Nat) (i : Nat) (t : Tok)
    (h : (scanT cs p)[i]? = some t) :
    p ≤ t.tstart ∧ t.tstart < t.tstop ∧ t.tstop ≤ p + cs.length := by
  obtain ⟨a, b, c2, -, -, -⟩ := scanT_main cs p t (List.getElem?_mem h)
  exact ⟨a, b, c2⟩

theorem scanT_shift (cs : List Char) (p q : Nat) :
    scanT cs (p + q) = (scanT cs q).map (shiftTok p) := by
  match cs with
  | [] => rw [scanT_nil, scanT_nil]; rfl
  | c :: rest =>
    by_cases hw : isWsChar c = true
    · rw [scanT_ws c rest (p + q) hw, scanT_ws c rest q hw,
        show p + q + 1 = p + (q + 1) from by omega]
      exact scanT_shift rest p (q + 1)
    · have hw2 : isWsChar c = false := by simpa using hw
      by_cases hsc : c = ';'
      · rw [scanT_comment c rest (p + q) hw2 hsc, scanT_comment c rest q hw2 hsc,
          show p + q + 1 + (rest.takeWhile (fun d => d ≠ '\n')).length =
            p + (q + 1 + (rest.takeWhile (fun d => d ≠ '\n')).length) from by omega]
        exact scanT_shift _ p _
      · by_cases hlp : c = '('
        · rw [scanT_lparen c rest (p + q) hw2 hsc hlp, scanT_lparen c rest q hw2 hsc hlp,
            List.map_cons]
          congr 1
          · simp [shiftTok]
            omega
          · rw [show p + q + 1 = p + (q + 1) from by omega]
            exact scanT_shift rest p (q + 1)
        · by_cases hrp : c = ')'
          · rw [scanT_rparen c rest (p + q) hw2 hsc hlp hrp,
              scanT_rparen c rest q hw2 hsc hlp hrp, List.map_cons]
            congr 1
            · simp [shiftTok]
              omega
            · rw [show p + q + 1 = p + (q + 1) from by omega]
              exact scanT_shift rest p (q + 1)
          · by_cases hq : c = '"'
            · cases hfi : rest.findIdx? (fun d => d = '"') with
              | some j =>
                rw [scanT_string c rest (p + q) hw2 hsc hlp hrp hq j hfi,
                  scanT_string c rest q hw2 hsc hlp hrp hq j hfi, List.map_cons]
                congr 1
                · simp [shiftTok]
                  omega
                · rw [show p + q + j + 2 = p + (q + j + 2) from by omega]
                  exact scanT_shift _ p _
              | none =>
                rw [scanT_fallback c rest (p + q) hw2 hsc hlp hrp hq hfi,
                  scanT_fallback c rest q hw2 hsc hlp hrp hq hfi, List.map_cons]
                congr 1
                · simp [shiftTok]
                  omega
                · rw [show p + q + ((c :: rest).takeWhile isAtomChar).length =
                    p + (q + ((c :: rest).takeWhile isAtomChar).length) from by omega]
                  exact scanT_shift _ p _
            · rw [scanT_atom c rest (p + q) hw2 hsc hlp hrp hq,
                scanT_atom c rest q hw2 hsc hlp hrp hq, List.map_cons]
              congr 1
              · simp [shiftTok]
                omega
              · rw [show p + q + ((c :: rest).takeWhile isAtomChar).length =
                  p + (q + ((c :: rest).takeWhile isAtomChar).length) from by omega]
                exact scanT_shift _ p _
termination_by cs.length
decreasing_by all_goals simp [List.length_drop] <;> omega

theorem scanT_suffix (cs : List Char) (p i : Nat) (t : Tok)
    (h : (scanT cs p)[i]? = some t) :
    scanT (cs.drop (t.tstart - p)) t.tstart = (scanT cs p).drop i := by
  match cs with
  | [] => rw [scanT_nil] at h; simp at h
  | c :: rest =>
    by_cases hw : isWsChar c = true
    · rw [scanT_ws c rest p hw] at h ⊢
      obtain ⟨ha, -, -⟩ := tok_bounds rest (p + 1) i t h
      rw [drop_cons_of_pos c rest _ (by omega),
        show t.tstart - p - 1 = t.tstart - (p + 1) from by omega]
      exact scanT_suffix rest (p + 1) i t h
    · have hw2 : isWsChar c = false := by simpa using hw
      by_cases hsc : c = ';'
      · rw [scanT_comment c rest p hw2 hsc] at h ⊢
        obtain ⟨ha, -, -⟩ := tok_bounds _ _ i t h
        rw [drop_cons_of_pos c rest _ (by omega)]
        rw [show t.tstart - p - 1 =
          ((rest.takeWhile (fun d => d ≠ '\n')).length) +
            (t.tstart - (p + 1 + (rest.takeWhile (fun d => d ≠ '\n')).length)) from by omega]
        rw [← List.drop_drop]
        exact scanT_suffix _ _ i t h
      · by_cases hlp : c = '('
        · rw [scanT_lparen c rest p hw2 hsc hlp] at h ⊢
          cases i with
          | zero =>
            rw [List.getElem?_cons_zero] at h
            have ht : t = ⟨['('], p, p + 1⟩ := (Option.some.inj h).symm
            subst ht
            rw [show (⟨['('], p, p + 1⟩ : Tok).tstart - p = 0 from by simp,
              List.drop_zero, List.drop_zero]
            rw [scanT_lparen c rest p hw2 hsc hlp]
          | succ i2 =>
            rw [List.getElem?_cons_succ] at h
            obtain ⟨ha, -, -⟩ := tok_bounds rest (p + 1) i2 t h
            rw [List.drop_succ_cons, drop_cons_of_pos c rest _ (by omega),
              show t.tstart - p - 1 = t.tstart - (p + 1) from by omega]
            exact scanT_suffix rest (p + 1) i2 t h
        · by_cases hrp : c = ')'
          · rw [scanT_rparen c rest p hw2 hsc hlp hrp] at h ⊢
            cases i with
            | zero =>
              rw [List.getElem?_cons_zero] at h
              have ht : t = ⟨[')'], p, p + 1⟩ := (Option.some.inj h).symm
              subst ht
              rw [show (⟨[')'], p, p + 1⟩ : Tok).tstart - p = 0 from by simp,
                List.drop_zero, List.drop_zero]
              rw [scanT_rparen c rest p hw2 hsc hlp hrp]
            | succ i2 =>
              rw [List.getElem?_cons_succ] at h
              obtain ⟨ha, -, -⟩ := tok_bounds rest (p + 1) i2 t h
              rw [List.drop_succ_cons, drop_cons_of_pos c rest _ (by omega),
                show t.tstart - p - 1 = t.tstart - (p + 1) from by omega]
              exact scanT_suffix rest (p + 1) i2 t h
          · by_cases hq : c = '"'
            · cases hfi : rest.findIdx? (fun d => d = '"') with
              | some j =>
                rw [scanT_string c rest p hw2 hsc hlp hrp hq j hfi] at h ⊢
                cases i with
                | zero =>
                  rw [List.getElem?_cons_zero] at h
                  have ht : t = ⟨'"' :: (rest.take j ++ ['"']), p, p + j + 2⟩ :=
                    (Option.some.inj h).symm
                  subst ht
                  rw [show (⟨'"' :: (rest.take j ++ ['"']), p, p + j + 2⟩ : Tok).tstart - p = 0
                    from by simp, List.drop_zero, List.drop_zero]
                  rw [scanT_string c rest p hw2 hsc hlp hrp hq j hfi]
                | succ i2 =>
                  rw [List.getElem?_cons_succ] at h
                  obtain ⟨ha, -, -⟩ := tok_bounds _ _ i2 t h
                  rw [List.drop_succ_cons, drop_cons_of_pos c rest _ (by omega),
                    show t.tstart - p - 1 = (j + 1) + (t.tstart - (p + j + 2)) from by omega,
                    ← List.drop_drop]
                  exact scanT_suffix _ _ i2 t h
              | none =>
                rw [scanT_fallback c rest p hw2 hsc hlp hrp hq hfi] at h ⊢
                have hcA : isAtomChar c = true := by simp [isAtomChar, hw2, hlp, hrp]
                have hrlen : ((c :: rest).takeWhile isAtomChar).length =
                    (rest.takeWhile isAtomChar).length + 1 := by
                  rw [List.takeWhile_cons, if_pos hcA]
                  rfl
                cases i with
                | zero =>
                  rw [List.getElem?_cons_zero] at h
                  have ht : t = ⟨(c :: rest).takeWhile isAtomChar, p,
                      p + ((c :: rest).takeWhile isAtomChar).length⟩ :=
                    (Option.some.inj h).symm
                  subst ht
                  rw [show (⟨(c :: rest).takeWhile isAtomChar, p,
                      p + ((c :: rest).takeWhile isAtomChar).length⟩ : Tok).tstart - p = 0
                    from by simp, List.drop_zero, List.drop_zero]
                  rw [scanT_fallback c rest p hw2 hsc hlp hrp hq hfi]
                | succ i2 =>
                  rw [List.getElem?_cons_succ] at h
                  obtain ⟨ha, -, -⟩ := tok_bounds _ _ i2 t h
                  rw [List.drop_succ_cons, drop_cons_of_pos c rest _ (by omega),
                    show t.tstart - p - 1 =
                      (((c :: rest).takeWhile isAtomChar).length - 1) +
                        (t.tstart - (p + ((c :: rest).takeWhile isAtomChar).length))
                      from by rw [hrlen] at ha ⊢; omega,
                    ← List.drop_drop]
                  exact scanT_suffix _ _ i2 t h
            · rw [scanT_atom c rest p hw2 hsc hlp hrp hq] at h ⊢
              have hcA : isAtomChar c = true := by simp [isAtomChar, hw2, hlp, hrp]
              have hrlen : ((c :: rest).takeWhile isAtomChar).length =
                  (rest.takeWhile isAtomChar).length + 1 := by
                rw [List.takeWhile_cons, if_pos hcA]
                rfl
              cases i with
              | zero =>
                rw [List.getElem?_cons_zero] at h
                have ht : t = ⟨(c :: rest).takeWhile isAtomChar, p,
                    p + ((c :: rest).takeWhile isAtomChar).length⟩ :=
                  (Option.some.inj h).symm
                subst ht
                rw [show (⟨(c :: rest).takeWhile isAtomChar, p,
                    p + ((c :: rest).takeWhile isAtomChar).length⟩ : Tok).tstart - p = 0
                  from by simp, List.drop_zero, List.drop_zero]
                rw [scanT_atom c rest p hw2 hsc hlp hrp hq]
              | succ i2 =>
                rw [List.getElem?_cons_succ] at h
                obtain ⟨ha, -, -⟩ := tok_bounds _ _ i2 t h
                rw [List.drop_succ_cons, drop_cons_of_pos c rest _ (by omega),
                  show t.tstart - p - 1 =
                    (((c :: rest).takeWhile isAtomChar).length - 1) +
                      (t.tstart - (p + ((c :: rest).takeWhile isAtomChar).length))
                    from by rw [hrlen] at ha ⊢; omega,
                  ← List.drop_drop]
                exact scanT_suffix _ _ i2 t h
termination_by cs.length
decreasing_by all_goals simp [List.length_drop] <;> omega

lemma atomChar_facts (c : Char) (h : isAtomChar c = true) :
    isWsChar c = false ∧ c ≠ '(' ∧ c ≠ ')' := by
  simp [isAtomChar] at h
  exact ⟨h.1.1, h.1.2, h.2⟩

lemma scanT_single_atom (txt : List Char) (p : Nat) (hne : txt ≠ [])
    (hall : ∀ x ∈ txt, isAtomChar x = true) (hsc : txt.head? ≠ some ';')
    (hqt : txt.head? = some '"' → '"' ∉ txt.tail) :
    scanT txt p = [⟨txt, p, p + txt.length⟩] := by
  cases txt with
  | nil => exact absurd rfl hne
  | cons c tl =>
    have hcA : isAtomChar c = true := hall c (List.mem_cons_self _ _)
    obtain ⟨hw2, hlp, hrp⟩ := atomChar_facts c hcA
    have hsc2 : c ≠ ';' := fun hc => hsc (by rw [hc]; rfl)
    have hrun : (c :: tl).takeWhile isAtomChar = c :: tl :=
      List.takeWhile_eq_self_iff.mpr hall
    by_cases hq : c = '"'
    · have hfi : tl.findIdx? (fun d => d = '"') = none := by
        rw [List.findIdx?_eq_none_iff]
        intro x hx
        have : '"' ∉ tl := hqt (by rw [hq]; rfl)
        simp only [decide_eq_false_iff_not]
        intro hc
        exact this (hc ▸ hx)
      rw [scanT_fallback c tl p hw2 hsc2 hlp hrp hq hfi, hrun]
      have hlen : (c :: tl).length - 1 = tl.length := by simp
      rw [hlen, List.drop_length, scanT_nil]
    · rw [scanT_atom c tl p hw2 hsc2 hlp hrp hq, hrun]
      have hlen : (c :: tl).length - 1 = tl.length := by simp
      rw [hlen, List.drop_length, scanT_nil]

lemma scanT_single_string (mid : List Char) (p : Nat) (hmid : '"' ∉ mid) :
    scanT ('"' :: (mid ++ ['"'])) p =
      [⟨'"' :: (mid ++ ['"']), p, p + mid.length + 2⟩] := by
  have hfi : (mid ++ ['"']).findIdx? (fun d => d = '"') = some mid.length :=
    findIdx?_append_quote mid hmid
  rw [scanT_string '"' (mid ++ ['"']) p (by decide) (by decide) (by decide) (by decide)
    rfl mid.length hfi]
  rw [List.take_left]
  have hdrop : (mid ++ ['"']).drop (mid.length + 1) = [] := by
    have : (mid ++ ['"']).length = mid.length + 1 := by simp
    rw [← this, List.drop_length]
  rw [hdrop, scanT_nil]

theorem scanT_cut (cs : List Char) (p j : Nat) (u : Tok)
    (h : (scanT cs p)[j]? = some u) :
    scanT (cs.take (u.tstop - p)) p = (scanT cs p).take (j + 1) := by
  match cs with
  | [] => rw [scanT_nil] at h; simp at h
  | c :: rest =>
    by_cases hw : isWsChar c = true
    · rw [scanT_ws c rest p hw] at h ⊢
      obtain ⟨ha, hb, -⟩ := tok_bounds rest (p + 1) j u h
      rw [take_cons_of_pos c rest _ (by omega),
        scanT_ws c (rest.take (u.tstop - p - 1)) p hw,
        show u.tstop - p - 1 = u.tstop - (p + 1) from by omega]
      exact scanT_cut rest (p + 1) j u h
    · have hw2 : isWsChar c = false := by simpa using hw
      by_cases hsc : c = ';'
      · rw [scanT_comment c rest p hw2 hsc] at h ⊢
        obtain ⟨ha, hb, -⟩ := tok_bounds _ _ j u h
        have hnle : (rest.takeWhile (fun d => d ≠ '\n')).length ≤ rest.length :=
          (List.takeWhile_prefix _).length_le
        rw [take_cons_of_pos c rest _ (by omega),
          scanT_comment c (rest.take (u.tstop - p - 1)) p hw2 hsc]
        have hn2 : ((rest.take (u.tstop - p - 1)).takeWhile (fun d => d ≠ '\n')).length =
            (rest.takeWhile (fun d => d ≠ '\n')).length := by
          rw [takeWhile_take, List.length_take]
          omega
        rw [hn2, List.drop_take,
          show u.tstop - p - 1 - (rest.takeWhile (fun d => d ≠ '\n')).length =
            u.tstop - (p + 1 + (rest.takeWhile (fun d => d ≠ '\n')).length) from by omega]
        exact scanT_cut _ _ j u h
      · by_cases hlp : c = '('
        · rw [scanT_lparen c rest p hw2 hsc hlp] at h ⊢
          cases j with
          | zero =>
            rw [List.getElem?_cons_zero] at h
            have hu : u = ⟨['('], p, p + 1⟩ := (Option.some.inj h).symm
            subst hu
            rw [show (⟨['('], p, p + 1⟩ : Tok).tstop - p = 1 from by simp,
              take_cons_of_pos c rest 1 (by omega)]
            simp only [Nat.sub_self, List.take_zero]
            rw [scanT_lparen c [] p hw2 hsc hlp, scanT_nil]
            rfl
          | succ j2 =>
            rw [List.getElem?_cons_succ] at h
            obtain ⟨ha, hb, -⟩ := tok_bounds rest (p + 1) j2 u h
            rw [take_cons_of_pos c rest _ (by omega),
              scanT_lparen c (rest.take (u.tstop - p - 1)) p hw2 hsc hlp,
              List.take_succ_cons,
              show u.tstop - p - 1 = u.tstop - (p + 1) from by omega]
            exact congrArg (List.cons _) (scanT_cut rest (p + 1) j2 u h)
        · by_cases hrp : c = ')'
          · rw [scanT_rparen c rest p hw2 hsc hlp hrp] at h ⊢
            cases j with
            | zero =>
              rw [List.getElem?_cons_zero] at h
              have hu : u = ⟨[')'], p, p + 1⟩ := (Option.some.inj h).symm
              subst hu
              rw [show (⟨[')'], p, p + 1⟩ : Tok).tstop - p = 1 from by simp,
                take_cons_of_pos c rest 1 (by omega)]
              simp only [Nat.sub_self, List.take_zero]
              rw [scanT_rparen c [] p hw2 hsc hlp hrp, scanT_nil]
              rfl
            | succ j2 =>
              rw [List.getElem?_cons_succ] at h
              obtain ⟨ha, hb, -⟩ := tok_bounds rest (p + 1) j2 u h
              rw [take_cons_of_pos c rest _ (by omega),
                scanT_rparen c (rest.take (u.tstop - p - 1)) p hw2 hsc hlp hrp,
                List.take_succ_cons,
                show u.tstop - p - 1 = u.tstop - (p + 1) from by omega]
              exact congrArg (List.cons _) (scanT_cut rest (p + 1) j2 u h)
          · by_cases hq : c = '"'
            · cases hfi : rest.findIdx? (fun d => d = '"') with
              | some jq =>
                rw [scanT_string c rest p hw2 hsc hlp hrp hq jq hfi] at h ⊢
                obtain ⟨hjlen, -, -, -⟩ := findIdx?_some_facts rest jq hfi
                cases j with
                | zero =>
                  rw [List.getElem?_cons_zero] at h
                  have hu : u = ⟨'"' :: (rest.take jq ++ ['"']), p, p + jq + 2⟩ :=
                    (Option.some.inj h).symm
                  subst hu
                  rw [show (⟨'"' :: (rest.take jq ++ ['"']), p, p + jq + 2⟩ : Tok).tstop - p =
                    jq + 2 from by show p + jq + 2 - p = jq + 2; omega,
                    take_cons_of_pos c rest _ (by omega),
                    show jq + 2 - 1 = jq + 1 from by omega,
                    scanT_string c (rest.take (jq + 1)) p hw2 hsc hlp hrp hq jq
                      (findIdx?_take_some rest jq (jq + 1) hfi (by omega)),
                    List.take_take, Nat.min_eq_left (by omega),
                    List.drop_take, Nat.sub_self, List.take_zero, scanT_nil]
                  rfl
                | succ j2 =>
                  rw [List.getElem?_cons_succ] at h
                  obtain ⟨ha, hb, -⟩ := tok_bounds _ _ j2 u h
                  rw [take_cons_of_pos c rest _ (by omega),
                    scanT_string c (rest.take (u.tstop - p - 1)) p hw2 hsc hlp hrp hq jq
                      (findIdx?_take_some rest jq _ hfi (by omega)),
                    List.take_take, Nat.min_eq_left (by omega),
                    List.take_succ_cons, List.drop_take,
                    show u.tstop - p - 1 - (jq + 1) = u.tstop - (p + jq + 2) from by omega]
                  exact congrArg (List.cons _) (scanT_cut _ _ j2 u h)
              | none =>
                rw [scanT_fallback c rest p hw2 hsc hlp hrp hq hfi] at h ⊢
                have hcA : isAtomChar c = true := by simp [isAtomChar, hw2, hlp, hrp]
                have hrun : (c :: rest).takeWhile isAtomChar =
                    c :: rest.takeWhile isAtomChar := by
                  rw [List.takeWhile_cons, if_pos hcA]
                have hrlen : ((c :: rest).takeWhile isAtomChar).length =
                    (rest.takeWhile isAtomChar).length + 1 := by
                  rw [hrun]
                  rfl
                have hrle : (rest.takeWhile isAtomChar).length ≤ rest.length :=
                  (List.takeWhile_prefix _).length_le
                cases j with
                | zero =>
                  rw [List.getElem?_cons_zero] at h
                  have hu : u = ⟨(c :: rest).takeWhile isAtomChar, p,
                      p + ((c :: rest).takeWhile isAtomChar).length⟩ :=
                    (Option.some.inj h).symm
                  subst hu
                  rw [show (⟨(c :: rest).takeWhile isAtomChar, p,
                      p + ((c :: rest).takeWhile isAtomChar).length⟩ : Tok).tstop - p =
                    ((c :: rest).takeWhile isAtomChar).length from by simp,
                    take_takeWhile_len (c :: rest) isAtomChar]
                  rw [scanT_single_atom ((c :: rest).takeWhile isAtomChar) p
                    (by rw [hrun]; simp)
                    (fun x hx => List.mem_takeWhile_imp hx)
                    (by rw [hrun]; simp only [List.head?_cons]; rw [hq]; simp)
                    (by rw [hrun]
                        simp only [List.tail_cons]
                        intro _ hmem
                        exact mem_take_of_findIdx?_none rest hfi
                          ((List.takeWhile_prefix _).subset hmem))]
                  rw [show ((c :: rest).takeWhile isAtomChar).length =
                    (⟨(c :: rest).takeWhile isAtomChar, p,
                      p + ((c :: rest).takeWhile isAtomChar).length⟩ : Tok).text.length
                    from rfl]
                  rfl
                | succ j2 =>
                  rw [List.getElem?_cons_succ] at h
                  obtain ⟨ha, hb, -⟩ := tok_bounds _ _ j2 u h
                  have hm : ((c :: rest).takeWhile isAtomChar).length ≤ u.tstop - p - 1 := by
                    rw [hrlen] at ha ⊢
                    omega
                  have htw : (c :: rest.take (u.tstop - p - 1)).takeWhile isAtomChar =
                      (c :: rest).takeWhile isAtomChar := by
                    rw [show (c :: rest.take (u.tstop - p - 1)) =
                      (c :: rest).take (u.tstop - p) from by
                        rw [take_cons_of_pos c rest _ (by omega)]]
                    rw [takeWhile_take]
                    exact List.take_of_length_le (by omega)
                  rw [take_cons_of_pos c rest _ (by omega),
                    scanT_fallback c (rest.take (u.tstop - p - 1)) p hw2 hsc hlp hrp hq
                      (findIdx?_take_none rest _ hfi),
                    htw, List.take_succ_cons, List.drop_take,
                    show u.tstop - p - 1 - (((c :: rest).takeWhile isAtomChar).length - 1) =
                      u.tstop - (p + ((c :: rest).takeWhile isAtomChar).length) from by
                        rw [hrlen] at ha ⊢
                        omega]
                  exact congrArg (List.cons _) (scanT_cut _ _ j2 u h)
            · rw [scanT_atom c rest p hw2 hsc hlp hrp hq] at h ⊢
              have hcA : isAtomChar c = true := by simp [isAtomChar, hw2, hlp, hrp]
              have hrun : (c :: rest).takeWhile isAtomChar =
                  c :: rest.takeWhile isAtomChar := by
                rw [List.takeWhile_cons, if_pos hcA]
              have hrlen : ((c :: rest).takeWhile isAtomChar).length =
                  (rest.takeWhile isAtomChar).length + 1 := by
                rw [hrun]
                rfl
              have hrle : (rest.takeWhile isAtomChar).length ≤ rest.length :=
                (List.takeWhile_prefix _).length_le
              cases j with
              | zero =>
                rw [List.getElem?_cons_zero] at h
                have hu : u = ⟨(c :: rest).takeWhile isAtomChar, p,
                    p + ((c :: rest).takeWhile isAtomChar).length⟩ :=
                  (Option.some.inj h).symm
                subst hu
                rw [show (⟨(c :: rest).takeWhile isAtomChar, p,
                    p + ((c :: rest).takeWhile isAtomChar).length⟩ : Tok).tstop - p =
                  ((c :: rest).takeWhile isAtomChar).length from by simp,
                  take_takeWhile_len (c :: rest) isAtomChar]
                rw [scanT_single_atom ((c :: rest).takeWhile isAtomChar) p
                  (by rw [hrun]; simp)
                  (fun x hx => List.mem_takeWhile_imp hx)
                  (by rw [hrun]; simp only [List.head?_cons]; simp [hsc])
                  (by rw [hrun]
                      simp only [List.head?_cons]
                      intro hcq
                      exact absurd (Option.some.inj hcq) hq)]
                rw [show ((c :: rest).takeWhile isAtomChar).length =
                  (⟨(c :: rest).takeWhile isAtomChar, p,
                    p + ((c :: rest).takeWhile isAtomChar).length⟩ : Tok).text.length
                  from rfl]
                rfl
              | succ j2 =>
                rw [List.getElem?_cons_succ] at h
                obtain ⟨ha, hb, -⟩ := tok_bounds _ _ j2 u h
                have hm : ((c :: rest).takeWhile isAtomChar).length ≤ u.tstop - p - 1 := by
                  rw [hrlen] at ha ⊢
                  omega
                have htw : (c :: rest.take (u.tstop - p - 1)).takeWhile isAtomChar =
                    (c :: rest).takeWhile isAtomChar := by
                  rw [show (c :: rest.take (u.tstop - p - 1)) =
                    (c :: rest).take (u.tstop - p) from by
                      rw [take_cons_of_pos c rest _ (by omega)]]
                  rw [takeWhile_take]
                  exact List.take_of_length_le (by omega)
                rw [take_cons_of_pos c rest _ (by omega),
                  scanT_atom c (rest.take (u.tstop - p - 1)) p hw2 hsc hlp hrp hq,
                  htw, List.take_succ_cons, List.drop_take,
                  show u.tstop - p - 1 - (((c :: rest).takeWhile isAtomChar).length - 1) =
                    u.tstop - (p + ((c :: rest).takeWhile isAtomChar).length) from by
                      rw [hrlen] at ha ⊢
                      omega]
                exact congrArg (List.cons _) (scanT_cut _ _ j2 u h)
termination_by cs.length
decreasing_by all_goals simp [List.length_drop] <;> omega

lemma prun_append_out (text : List Char) (W1 W2 : List Tok) (s : PState) :
    prun text (W1 ++ W2) s =
      match prun text W1 s with
      | .error e => .error e
      | .ok s1 => prun text W2 s1 := by
  induction W1 generalizing s with
  | nil => rw [prun_nil, List.nil_append]
  | cons t W1 ih =>
    rw [List.cons_append, prun_cons, prun_cons]
    cases hp : pstep text s t with
    | error e => rfl
    | ok s2 => exact ih s2

lemma prun_append_ok (text : List Char) (W1 W2 : List Tok) (s s1 : PState)
    (h : prun text W1 s = .ok s1) :
    prun text (W1 ++ W2) s = prun text W2 s1 := by
  rw [prun_append_out, h]

lemma prun_append_split (text : List Char) (W1 W2 : List Tok) (s s2 : PState)
    (h : prun text (W1 ++ W2) s = .ok s2) :
    ∃ s1, prun text W1 s = .ok s1 ∧ prun text W2 s1 = .ok s2 := by
  rw [prun_append_out] at h
  cases hp : prun text W1 s with
  | error e => rw [hp] at h; exact absurd h (by simp)
  | ok s1 => rw [hp] at h; exact ⟨s1, rfl, h⟩

lemma graft_cons_opens (s : PState) (b : List ASTNode) (pr : List ASTNode × Nat)
    (o : List (List ASTNode × Nat)) :
    graft s b (pr :: o) = ⟨(graft s b o).base, pr :: (graft s b o).opens⟩ := by
  obtain ⟨sb, so⟩ := s
  cases so with
  | nil => rfl
  | cons pr2 r => rfl

lemma appendCur_graft (s : PState) (b : List ASTNode) (o : List (List ASTNode × Nat))
    (n : ASTNode) :
    appendCur (graft s b o) n =
      graft s (appendCur ⟨b, o⟩ n).base (appendCur ⟨b, o⟩ n).opens := by
  obtain ⟨sb, so⟩ := s
  cases so with
  | nil =>
    cases o with
    | nil => simp [graft, appendCur]
    | cons pr r =>
      obtain ⟨f, a⟩ := pr
      simp [graft, appendCur]
  | cons pr r =>
    obtain ⟨f, a⟩ := pr
    cases o with
    | nil => simp [graft, appendCur, List.append_assoc]
    | cons pr2 r2 =>
      obtain ⟨f2, a2⟩ := pr2
      simp [graft, appendCur]

lemma pstep_graft (text : List Char) (s : PState) (b : List ASTNode)
    (o : List (List ASTNode × Nat)) (t : Tok) (b' : List ASTNode)
    (o' : List (List ASTNode × Nat))
    (h : pstep text ⟨b, o⟩ t = Except.ok ⟨b', o'⟩) :
    pstep text (graft s b o) t = Except.ok (graft s b' o') := by
  by_cases h1 : t.text = ['(']
  · rw [pstep_open text ⟨b, o⟩ t h1, Except.ok.injEq, PState.mk.injEq] at h
    obtain ⟨hb, ho⟩ := h
    subst hb
    subst ho
    rw [pstep_open text (graft s b o) t h1, graft_cons_opens]
  · by_cases h2 : t.text = [')']
    · cases o with
      | nil =>
        rw [pstep_close_err text b t h1 h2] at h
        exact absurd h (by simp)
      | cons pr2 r2 =>
        obtain ⟨fin, a2⟩ := pr2
        rw [pstep_close text b fin a2 r2 t h1 h2, Except.ok.injEq] at h
        rw [graft_cons_opens,
          pstep_close text (graft s b r2).base fin a2 (graft s b r2).opens t h1 h2,
          show (⟨(graft s b r2).base, (graft s b r2).opens⟩ : PState) = graft s b r2 from rfl,
          appendCur_graft, h]
    · rw [pstep_atom text ⟨b, o⟩ t h1 h2, Except.ok.injEq] at h
      rw [pstep_atom text (graft s b o) t h1 h2, appendCur_graft, h]

lemma prun_graft (text : List Char) (W : List Tok) :
    ∀ (s : PState) (b : List ASTNode) (o : List (List ASTNode × Nat))
      (b' : List ASTNode) (o' : List (List ASTNode × Nat)),
    prun text W ⟨b, o⟩ = Except.ok ⟨b', o'⟩ →
    prun text W (graft s b o) = Except.ok (graft s b' o') := by
  induction W with
  | nil =>
    intro s b o b' o' h
    rw [prun_nil] at h
    rw [Except.ok.injEq, PState.mk.injEq] at h
    obtain ⟨hb, ho⟩ := h
    subst hb
    subst ho
    rw [prun_nil]
  | cons t W ih =>
    intro s b o b' o' h
    rw [prun_cons] at h
    rw [prun_cons]
    cases hp : pstep text ⟨b, o⟩ t with
    | error e =>
      rw [hp] at h
      exact absurd h (by simp)
    | ok s2 =>
      obtain ⟨b2, o2⟩ := s2
      rw [hp] at h
      rw [pstep_graft text s b o t b2 o2 hp]
      exact ih s b2 o2 b' o' h

lemma map_unshift_shift (a : Nat) (L : List Tok) :
    (L.map (shiftTok a)).map (unshiftTok a) = L := by
  induction L with
  | nil => rfl
  | cons t L ih =>
    simp only [List.map_cons, ih]
    rw [show unshiftTok a (shiftTok a t) = t from by
      simp [unshiftTok, shiftTok]]

lemma window_glue (T : List Tok) (l m r : Nat) (h1 : l ≤ m) (h2 : m ≤ r) :
    (T.drop l).take (r - l) = (T.drop l).take (m - l) ++ (T.drop m).take (r - m) := by
  rw [show r - l = (m - l) + (r - m) from by omega, List.take_add]
  congr 1
  rw [List.drop_drop, Nat.add_sub_cancel' h1]

lemma window_single (T : List Tok) (i : Nat) (u : Tok) (h : T[i]? = some u) :
    (T.drop i).take 1 = [u] := by
  have hlt : i < T.length := by
    by_contra hc
    rw [List.getElem?_eq_none (by omega)] at h
    exact absurd h (by simp)
  rw [List.drop_eq_getElem_cons hlt, List.take_succ_cons, List.take_zero]
  have : T[i] = u := by
    have := List.getElem?_eq_getElem hlt
    rw [this] at h
    exact Option.some.inj h
  rw [this]

lemma closeFrame_children_sub (fin : List ASTNode) (m : ASTNode)
    (hm : m ∈ allNodesL (childrenOf (closeFrame fin))) : m ∈ allNodesL fin := by
  cases fin with
  | nil => simp [closeFrame, childrenOf, allNodesL] at hm
  | cons n rest =>
    cases n with
    | oper k ch s =>
      rw [show childrenOf (closeFrame (ASTNode.oper k ch s :: rest)) = rest from rfl] at hm
      rw [show allNodesL (ASTNode.oper k ch s :: rest) =
        allNodes (ASTNode.oper k ch s) ++ allNodesL rest from rfl]
      exact List.mem_append_right _ hm
    | str c o2 s => exact hm
    | num o2 s => exact hm
    | boolean b2 o2 s => exact hm
    | symbol nm s => exact hm
    | var nm s => exact hm
    | expr ch s => exact hm

lemma appendCur_map (a : Nat) (base : List ASTNode) (r : List (List ASTNode × Nat))
    (n : ASTNode) :
    appendCur ⟨base, r.map (fun pr => (pr.1, pr.2 - a))⟩ n =
      ⟨(appendCur ⟨base, r⟩ n).base,
        (appendCur ⟨base, r⟩ n).opens.map (fun pr => (pr.1, pr.2 - a))⟩ := by
  cases r with
  | nil => rfl
  | cons pr2 r2 =>
    obtain ⟨f2, x2⟩ := pr2
    rfl

lemma pstep_shift (text : List Char) (a b : Nat) (t : Tok)
    (hta : a ≤ t.tstart) (hta2 : a ≤ t.tstop) (htb : t.tstop ≤ b)
    (base : List ASTNode) (opens : List (List ASTNode × Nat))
    (hopens : ∀ pr ∈ opens, a ≤ pr.2) (s' : PState)
    (h : pstep text ⟨base, opens⟩ t = Except.ok s') :
    pstep (listExtract text a b)
        ⟨base, opens.map (fun pr => (pr.1, pr.2 - a))⟩ (unshiftTok a t) =
      Except.ok ⟨s'.base, s'.opens.map (fun pr => (pr.1, pr.2 - a))⟩ ∧
      ∀ pr ∈ s'.opens, a ≤ pr.2 := by
  have hut : (unshiftTok a t).text = t.text := rfl
  by_cases h1 : t.text = ['(']
  · rw [pstep_open text ⟨base, opens⟩ t h1, Except.ok.injEq] at h
    subst h
    constructor
    · rw [pstep_open (listExtract text a b) _ (unshiftTok a t) (by rw [hut]; exact h1)]
      rfl
    · intro pr hpr
      rcases List.mem_cons.mp hpr with hh | hh
      · rw [hh]
        exact hta
      · exact hopens pr hh
  · by_cases h2 : t.text = [')']
    · cases opens with
      | nil =>
        rw [pstep_close_err text base t h1 h2] at h
        exact absurd h (by simp)
      | cons pr0 r =>
        obtain ⟨fin, x⟩ := pr0
        rw [pstep_close text base fin x r t h1 h2, Except.ok.injEq] at h
        subst h
        have hx : a ≤ x := hopens (fin, x) (List.mem_cons_self _ _)
        constructor
        · rw [show (((fin, x) :: r).map (fun pr => (pr.1, pr.2 - a))) =
            (fin, x - a) :: r.map (fun pr => (pr.1, pr.2 - a)) from rfl,
            pstep_close (listExtract text a b) base fin (x - a)
              (r.map (fun pr => (pr.1, pr.2 - a))) (unshiftTok a t)
              (by rw [hut]; exact h1) (by rw [hut]; exact h2),
            show (unshiftTok a t).tstop = t.tstop - a from rfl,
            listExtract_extract text a b x t.tstop hx hta2 htb,
            appendCur_map]
        · intro pr hpr
          cases r with
          | nil => simp [appendCur] at hpr
          | cons pr2 r2 =>
            obtain ⟨f2, x2⟩ := pr2
            rw [show (appendCur ⟨base, (f2, x2) :: r2⟩
                (setSource (closeFrame fin) (listExtract text x t.tstop))).opens =
              (f2 ++ [setSource (closeFrame fin) (listExtract text x t.tstop)], x2) :: r2
              from rfl] at hpr
            rcases List.mem_cons.mp hpr with hh | hh
            · rw [hh]
              exact hopens (f2, x2) (List.mem_cons_of_mem _ (List.mem_cons_self _ _))
            · exact hopens pr (List.mem_cons_of_mem _ (List.mem_cons_of_mem _ hh))
    · rw [pstep_atom text ⟨base, opens⟩ t h1 h2, Except.ok.injEq] at h
      subst h
      constructor
      · rw [pstep_atom (listExtract text a b) _ (unshiftTok a t)
            (by rw [hut]; exact h1) (by rw [hut]; exact h2),
          show (unshiftTok a t).text = t.text from rfl,
          show (unshiftTok a t).tstart = t.tstart - a from rfl,
          show (unshiftTok a t).tstop = t.tstop - a from rfl,
          listExtract_extract text a b t.tstart t.tstop hta hta2 htb,
          appendCur_map]
      · intro pr hpr
        cases opens with
        | nil => simp [appendCur] at hpr
        | cons pr2 r2 =>
          obtain ⟨f2, x2⟩ := pr2
          rw [show (appendCur ⟨base, (f2, x2) :: r2⟩
              (setSource (createAtom t.text) (listExtract text t.tstart t.tstop))).opens =
            (f2 ++ [setSource (createAtom t.text) (listExtract text t.tstart t.tstop)], x2)
              :: r2 from rfl] at hpr
          rcases List.mem_cons.mp hpr with hh | hh
          · rw [hh]
            exact hopens (f2, x2) (List.mem_cons_self _ _)
          · exact hopens pr (List.mem_cons_of_mem _ hh)

lemma prun_shift (text : List Char) (a b : Nat) (W : List Tok) :
    (∀ t ∈ W, a ≤ t.tstart ∧ a ≤ t.tstop ∧ t.tstop ≤ b) →
    ∀ (base : List ASTNode) (opens : List (List ASTNode × Nat)) (s' : PState),
    (∀ pr ∈ opens, a ≤ pr.2) →
    prun text W ⟨base, opens⟩ = Except.ok s' →
    prun (listExtract text a b) (W.map (unshiftTok a))
        ⟨base, opens.map (fun pr => (pr.1, pr.2 - a))⟩ =
      Except.ok ⟨s'.base, s'.opens.map (fun pr => (pr.1, pr.2 - a))⟩ := by
  induction W with
  | nil =>
    intro _ base opens s' _ h
    rw [prun_nil] at h
    rw [Except.ok.injEq] at h
    subst h
    rw [List.map_nil, prun_nil]
  | cons t W ih =>
    intro hW base opens s' hopens h
    rw [prun_cons] at h
    cases hp : pstep text ⟨base, opens⟩ t with
    | error e =>
      rw [hp] at h
      exact absurd h (by simp)
    | ok s2 =>
      rw [hp] at h
      obtain ⟨ht1, ht2, ht3⟩ := hW t (List.mem_cons_self _ _)
      obtain ⟨hps, hop2⟩ := pstep_shift text a b t ht1 ht2 ht3 base opens hopens s2 hp
      rw [List.map_cons, prun_cons, hps]
      obtain ⟨b2, o2⟩ := s2
      exact ih (fun u hu => hW u (List.mem_cons_of_mem _ hu)) b2 o2 s' hop2 h

lemma atom_good (text : List Char) (t : Tok) (hmem : t ∈ scanT text 0)
    (hlp : t.text ≠ ['(']) (hrp : t.text ≠ [')']) :
    goodNode (setSource (createAtom t.text) (listExtract text t.tstart t.tstop)) := by
  obtain ⟨-, -, -, htext, -, hwf⟩ := scanT_main text 0 t hmem
  rw [Nat.sub_zero, Nat.sub_zero] at htext
  rw [← htext]
  constructor
  · intro s hs
    rw [sourceTextOf_setSource] at hs
    have hs2 : s = t.text := (Option.some.inj hs).symm
    subst hs2
    have htok : scanT t.text 0 = [⟨t.text, 0, t.text.length⟩] := by
      rcases hwf with h1 | h2 | hstr | hatom
      · exact absurd h1 hlp
      · exact absurd h2 hrp
      · obtain ⟨mid, hmid, hnot⟩ := hstr
        have hlen2 : ('"' :: (mid ++ ['"'])).length = 0 + mid.length + 2 := by
          simp
        rw [hmid, scanT_single_string mid 0 hnot, hlen2]
      · obtain ⟨hne, hall, hsc, hq⟩ := hatom
        rw [scanT_single_atom t.text 0 hne hall hsc hq, Nat.zero_add]
    have hrun : prun t.text [⟨t.text, 0, t.text.length⟩] ⟨[], []⟩ =
        Except.ok ⟨[setSource (createAtom t.text)
          (listExtract t.text 0 t.text.length)], []⟩ := by
      rw [prun_cons, pstep_atom t.text ⟨[], []⟩ ⟨t.text, 0, t.text.length⟩ hlp hrp]
      rfl
    rw [show tokenize t.text = scanT t.text 0 from rfl, htok]
    unfold parse
    rw [hrun, show listExtract t.text 0 t.text.length = t.text from listExtract_self t.text]
    rfl
  · intro ch s hcs
    rcases hcs with hcase | ⟨k, hcase, hchne⟩
    · exact absurd hcase
        (setSource_ne_expr (createAtom t.text) t.text
          (fun ch2 s2 => createAtom_ne_expr t.text ch2 s2) ch (some s))
    · obtain ⟨s0, hshape⟩ := setSource_oper_shape (createAtom t.text) t.text k ch (some s) hcase
      rcases createAtom_cases t.text with h | h | ⟨b2, h⟩ | ⟨k2, h⟩ | h | h
      · rw [h] at hshape
        cases hshape
      · rw [h] at hshape
        cases hshape
      · rw [h] at hshape
        cases hshape
      · rw [h] at hshape
        injection hshape with hk hch hs0
        exact absurd hch.symm hchne
      · rw [h] at hshape
        cases hshape
      · rw [h] at hshape
        cases hshape

lemma close_good (text : List Char) (i0 i a : Nat) (u : Tok) (fin : List ASTNode)
    (h0 : (scanT text 0)[i0]? = some ⟨['('], a, a + 1⟩)
    (hu : (scanT text 0)[i]? = some u) (hut : u.text = [')']) (hlt : i0 < i)
    (hrun : prun text (((scanT text 0).drop (i0 + 1)).take (i - i0 - 1)) ⟨[], [([], a)]⟩ =
      Except.ok ⟨[], [(fin, a)]⟩) :
    goodNode (setSource (closeFrame fin) (listExtract text a u.tstop)) := by
  obtain ⟨-, -, -, htext0, -, -⟩ :=
    scanT_main text 0 ⟨['('], a, a + 1⟩ (List.getElem?_mem h0)
  have hop : ['('] = listExtract text a (a + 1) := htext0
  obtain ⟨-, hltu, hbu, htextu, hlenu, -⟩ := scanT_main text 0 u (List.getElem?_mem hu)
  rw [Nat.sub_zero, Nat.sub_zero] at htextu
  rw [Nat.zero_add] at hbu
  have hsuf : scanT (text.drop a) a = (scanT text 0).drop i0 :=
    scanT_suffix text 0 i0 ⟨['('], a, a + 1⟩ h0
  have hu2 : (scanT (text.drop a) a)[i - i0]? = some u := by
    rw [hsuf, List.getElem?_drop, show i0 + (i - i0) = i from by omega]
    exact hu
  obtain ⟨hau, -, -⟩ := tok_bounds (text.drop a) a (i - i0) u hu2
  have hab : a < u.tstop := by omega
  have hsl : (listExtract text a u.tstop).length = u.tstop - a :=
    listExtract_len text a u.tstop hbu
  have hslice_chars : (text.drop a).take (u.tstop - a) = listExtract text a u.tstop :=
    listExtract_eq_drop_take text a u.tstop (by omega)
  have hi0len : i0 < (scanT text 0).length := by
    by_contra hc
    rw [List.getElem?_eq_none (by omega)] at h0
    exact absurd h0 (by simp)
  have hW : ((scanT text 0).drop i0).take (i - i0 + 1) =
      ⟨['('], a, a + 1⟩ ::
        ((((scanT text 0).drop (i0 + 1)).take (i - i0 - 1)) ++ [u]) := by
    rw [List.drop_eq_getElem_cons hi0len,
      show (scanT text 0)[i0] = ⟨['('], a, a + 1⟩ from by
        have he := List.getElem?_eq_getElem hi0len
        rw [he] at h0
        exact Option.some.inj h0,
      List.take_succ_cons]
    congr 1
    rw [show i - i0 = (i - i0 - 1) + 1 from by omega, List.take_succ]
    congr 1
    rw [List.getElem?_drop, show i0 + 1 + (i - i0 - 1) = i from by omega, hu]
    rfl
  have hcut := scanT_cut (text.drop a) a (i - i0) u hu2
  rw [hsuf, hslice_chars, hW] at hcut
  have hshift : scanT (listExtract text a u.tstop) a =
      (scanT (listExtract text a u.tstop) 0).map (shiftTok a) :=
    scanT_shift (listExtract text a u.tstop) a 0
  have htokslice : scanT (listExtract text a u.tstop) 0 =
      (⟨['('], a, a + 1⟩ ::
        ((((scanT text 0).drop (i0 + 1)).take (i - i0 - 1)) ++ [u])).map
        (unshiftTok a) := by
    have h1 := congrArg (List.map (unshiftTok a)) (hshift.symm.trans hcut)
    rw [map_unshift_shift] at h1
    exact h1
  have hbounds : ∀ t2 ∈ ((scanT text 0).drop (i0 + 1)).take (i - i0 - 1),
      a ≤ t2.tstart ∧ a ≤ t2.tstop ∧ t2.tstop ≤ u.tstop := by
    intro t2 ht2
    have hmem2 : t2 ∈ scanT (listExtract text a u.tstop) a := by
      rw [hcut]
      exact List.mem_cons_of_mem _ (List.mem_append_left _ ht2)
    obtain ⟨hb1, hb2, hb3, -, -, -⟩ := scanT_main (listExtract text a u.tstop) a t2 hmem2
    rw [hsl] at hb3
    exact ⟨hb1, by omega, by omega⟩
  have hreplay := prun_shift text a u.tstop
    (((scanT text 0).drop (i0 + 1)).take (i - i0 - 1)) hbounds
    [] [([], a)] ⟨[], [(fin, a)]⟩
    (by
      intro pr hpr
      rw [List.mem_singleton] at hpr
      rw [hpr])
    hrun
  have hreplay2 : prun (listExtract text a u.tstop)
      ((((scanT text 0).drop (i0 + 1)).take (i - i0 - 1)).map (unshiftTok a))
      ⟨[], [([], 0)]⟩ = Except.ok ⟨[], [(fin, 0)]⟩ := by
    simp only [List.map_cons, List.map_nil, Nat.sub_self] at hreplay
    exact hreplay
  have hfullrun : prun (listExtract text a u.tstop)
      ((⟨['('], a, a + 1⟩ ::
        ((((scanT text 0).drop (i0 + 1)).take (i - i0 - 1)) ++ [u])).map
        (unshiftTok a))
      ⟨[], []⟩ =
      Except.ok ⟨[setSource (closeFrame fin) (listExtract text a u.tstop)], []⟩ := by
    rw [List.map_cons, prun_cons,
      pstep_open (listExtract text a u.tstop) ⟨[], []⟩
        (unshiftTok a ⟨['('], a, a + 1⟩) rfl]
    show prun (listExtract text a u.tstop)
      (((((scanT text 0).drop (i0 + 1)).take (i - i0 - 1)) ++ [u]).map (unshiftTok a))
      ⟨[], [([], a - a)]⟩ = _
    rw [Nat.sub_self, List.map_append,
      prun_append_ok (listExtract text a u.tstop) _ _ _ _ hreplay2,
      show [u].map (unshiftTok a) = [unshiftTok a u] from rfl, prun_cons,
      pstep_close (listExtract text a u.tstop) [] fin 0 [] (unshiftTok a u)
        (by rw [show (unshiftTok a u).text = u.text from rfl, hut]; decide)
        (by rw [show (unshiftTok a u).text = u.text from rfl, hut]),
      show (unshiftTok a u).tstop = u.tstop - a from rfl,
      show listExtract (listExtract text a u.tstop) 0 (u.tstop - a) =
          listExtract text a u.tstop from by
        rw [← hsl]
        exact listExtract_self (listExtract text a u.tstop)]
    rfl
  have hhead : (listExtract text a u.tstop).head? = some '(' := by
    apply take_one_head
    rw [← hslice_chars, List.take_take, Nat.min_eq_left (by omega),
      show (1 : Nat) = a + 1 - a from by omega,
      listExtract_eq_drop_take text a (a + 1) (by omega), ← hop]
  have hstart : u.tstart = u.tstop - 1 := by
    rw [hut] at hlenu
    simp at hlenu
    omega
  have hlast : (listExtract text a u.tstop).getLast? = some ')' := by
    apply drop_singleton_getLast (listExtract text a u.tstop) (u.tstop - a - 1)
    rw [← hslice_chars, List.drop_take, List.drop_drop,
      show (u.tstop - a) - (u.tstop - a - 1) = u.tstop - (u.tstop - 1) from by omega,
      show a + (u.tstop - a - 1) = u.tstop - 1 from by omega,
      listExtract_eq_drop_take text (u.tstop - 1) u.tstop (by omega),
      ← hstart, ← htextu, hut]
  constructor
  · intro s hs
    rw [sourceTextOf_setSource] at hs
    have hs2 : s = listExtract text a u.tstop := (Option.some.inj hs).symm
    subst hs2
    rw [show tokenize (listExtract text a u.tstop) =
      scanT (listExtract text a u.tstop) 0 from rfl, htokslice]
    unfold parse
    rw [hfullrun]
    rfl
  · intro ch s hcs
    have hsome : some (listExtract text a u.tstop) = some s := by
      rcases hcs with hcase | ⟨k, hcase, -⟩
      · rw [← sourceTextOf_setSource (closeFrame fin) (listExtract text a u.tstop), hcase]
        rfl
      · rw [← sourceTextOf_setSource (closeFrame fin) (listExtract text a u.tstop), hcase]
        rfl
    have hs2 : s = listExtract text a u.tstop := (Option.some.inj hsome).symm
    subst hs2
    exact ⟨hhead, hlast⟩

theorem prun_good (text : List Char) :
    ∀ (i : Nat), i ≤ (scanT text 0).length →
    ∀ (s : PState),
    prun text ((scanT text 0).take i) ⟨[], []⟩ = Except.ok s →
    goodState text i s := by
  intro i
  induction i with
  | zero =>
    intro _ s h
    rw [List.take_zero, prun_nil] at h
    rw [Except.ok.injEq] at h
    subst h
    refine ⟨?_, ?_, trivial⟩
    · intro n hn
      simp [allNodesL] at hn
    · intro pr hpr
      simp at hpr
  | succ i ih =>
    intro hle s' h
    have hil : i < (scanT text 0).length := by omega
    have hsome : (scanT text 0)[i]? = some (scanT text 0)[i] :=
      List.getElem?_eq_getElem hil
    have hsplit : (scanT text 0).take (i + 1) =
        (scanT text 0).take i ++ [(scanT text 0)[i]] := by
      rw [List.take_succ, hsome]
      rfl
    rw [hsplit] at h
    obtain ⟨s1, h1, h2⟩ := prun_append_split text _ _ _ _ h
    obtain ⟨hbase, hframes, hchain⟩ := ih (by omega) s1 h1
    rw [prun_cons] at h2
    cases hp : pstep text s1 ((scanT text 0)[i]) with
    | error e =>
      rw [hp] at h2
      exact absurd h2 (by simp)
    | ok s2 =>
      rw [hp] at h2
      have hs' : s2 = s' := Except.ok.inj h2
      subst hs'
      by_cases hcond1 : ((scanT text 0)[i]).text = ['(']
      · rw [pstep_open text s1 _ hcond1] at hp
        have hs2 := (Except.ok.inj hp).symm
        subst hs2
        refine ⟨?_, ?_, ?_⟩
        · intro n hn
          exact hbase n hn
        · intro pr hpr
          rcases List.mem_cons.mp hpr with hh | hh
          · intro n hn
            rw [hh] at hn
            simp [allNodesL] at hn
          · exact hframes pr hh
        · refine ⟨i, by omega, ?_, ?_, hchain⟩
          · rw [hsome]
            obtain ⟨-, hlt2, -, -, hlen2, -⟩ :=
              scanT_main text 0 ((scanT text 0)[i]) (List.getElem?_mem hsome)
            have hstop : ((scanT text 0)[i]).tstop = ((scanT text 0)[i]).tstart + 1 := by
              rw [hcond1] at hlen2
              simp at hlen2
              omega
            rw [← hcond1, ← hstop]
          · rw [show i + 1 - i - 1 = 0 from by omega, List.take_zero, prun_nil]
      · by_cases hcond2 : ((scanT text 0)[i]).text = [')']
        · obtain ⟨hsb, hso⟩ := s1
          cases hso with
          | nil =>
            rw [pstep_close_err text hsb _ hcond1 hcond2] at hp
            exact absurd hp (by simp)
          | cons fr rest =>
            obtain ⟨fin, a0⟩ := fr
            rw [pstep_close text hsb fin a0 rest _ hcond1 hcond2] at hp
            have hs2 := (Except.ok.inj hp).symm
            subst hs2
            obtain ⟨j0, hj0lt, hj0tok, hj0run, hj0tail⟩ := hchain
            have hnode : goodNode (setSource (closeFrame fin)
                (listExtract text a0 ((scanT text 0)[i]).tstop)) :=
              close_good text j0 i a0 ((scanT text 0)[i]) fin hj0tok hsome hcond2
                hj0lt hj0run
            have hnodeAll : ∀ n ∈ allNodes (setSource (closeFrame fin)
                (listExtract text a0 ((scanT text 0)[i]).tstop)), goodNode n := by
              intro n hn
              rw [allNodes_eq, childrenOf_setSource] at hn
              rcases List.mem_cons.mp hn with hh | hh
              · rw [hh]
                exact hnode
              · exact hframes (fin, a0) (List.mem_cons_self _ _) n
                  (closeFrame_children_sub fin n hh)
            cases rest with
            | nil =>
              refine ⟨?_, ?_, trivial⟩
              · intro n hn
                simp only [appendCur] at hn
                rw [allNodesL_append] at hn
                rcases List.mem_append.mp hn with hh | hh
                · exact hbase n hh
                · have hx : allNodesL [setSource (closeFrame fin)
                      (listExtract text a0 ((scanT text 0)[i]).tstop)] =
                      allNodes (setSource (closeFrame fin)
                        (listExtract text a0 ((scanT text 0)[i]).tstop)) ++ [] := by
                    simp [allNodesL]
                  rw [hx, List.append_nil] at hh
                  exact hnodeAll n hh
              · intro pr hpr
                simp [appendCur] at hpr
            | cons fr2 rest2 =>
              obtain ⟨f2, a2⟩ := fr2
              obtain ⟨j1, hj1lt, hj1tok, hj1run, hj1tail⟩ := hj0tail
              refine ⟨?_, ?_, ?_⟩
              · intro n hn
                exact hbase n hn
              · intro pr hpr
                simp only [appendCur] at hpr
                rcases List.mem_cons.mp hpr with hh | hh
                · intro n hn
                  rw [hh, show ((f2 ++ [setSource (closeFrame fin)
                      (listExtract text a0 ((scanT text 0)[i]).tstop)], a2) :
                      List ASTNode × Nat).1 = f2 ++ [setSource (closeFrame fin)
                      (listExtract text a0 ((scanT text 0)[i]).tstop)] from rfl] at hn
                  rw [allNodesL_append] at hn
                  rcases List.mem_append.mp hn with hh2 | hh2
                  · exact hframes (f2, a2)
                      (List.mem_cons_of_mem _ (List.mem_cons_self _ _)) n hh2
                  · have hx : allNodesL [setSource (closeFrame fin)
                        (listExtract text a0 ((scanT text 0)[i]).tstop)] =
                        allNodes (setSource (closeFrame fin)
                          (listExtract text a0 ((scanT text 0)[i]).tstop)) ++ [] := by
                      simp [allNodesL]
                    rw [hx, List.append_nil] at hh2
                    exact hnodeAll n hh2
                · exact hframes pr
                    (List.mem_cons_of_mem _ (List.mem_cons_of_mem _ hh))
              · refine ⟨j1, by omega, hj1tok, ?_, hj1tail⟩
                have hj0len : j0 < (scanT text 0).length := by
                  by_contra hc
                  rw [List.getElem?_eq_none (by omega)] at hj0tok
                  exact absurd hj0tok (by simp)
                have hglue1 : ((scanT text 0).drop (j1 + 1)).take (i + 1 - j1 - 1) =
                    ((scanT text 0).drop (j1 + 1)).take (j0 - j1 - 1) ++
                    (((scanT text 0).drop j0).take (i + 1 - j0)) := by
                  have hg := window_glue (scanT text 0) (j1 + 1) j0 (i + 1)
                    (by omega) (by omega)
                  rw [show i + 1 - (j1 + 1) = i + 1 - j1 - 1 from by omega,
                    show j0 - (j1 + 1) = j0 - j1 - 1 from by omega] at hg
                  exact hg
                have hglue2 : ((scanT text 0).drop j0).take (i + 1 - j0) =
                    ⟨['('], a0, a0 + 1⟩ ::
                      (((scanT text 0).drop (j0 + 1)).take (i - j0 - 1) ++
                        [(scanT text 0)[i]]) := by
                  rw [List.drop_eq_getElem_cons hj0len,
                    show (scanT text 0)[j0] = ⟨['('], a0, a0 + 1⟩ from by
                      have he := List.getElem?_eq_getElem hj0len
                      rw [he] at hj0tok
                      exact Option.some.inj hj0tok,
                    show i + 1 - j0 = (i - j0) + 1 from by omega, List.take_succ_cons]
                  congr 1
                  rw [show i - j0 = (i - j0 - 1) + 1 from by omega, List.take_succ,
                    List.getElem?_drop, show j0 + 1 + (i - j0 - 1) = i from by omega,
                    hsome]
                  rfl
                have hmid := prun_graft text
                  (((scanT text 0).drop (j0 + 1)).take (i - j0 - 1))
                  ⟨[], [(f2, a2)]⟩ [] [([], a0)] [] [(fin, a0)] hj0run
                rw [show graft ⟨[], [(f2, a2)]⟩ [] [([], a0)] =
                    ⟨[], [([], a0), (f2 ++ [], a2)]⟩ from rfl,
                  show graft ⟨[], [(f2, a2)]⟩ [] [(fin, a0)] =
                    ⟨[], [(fin, a0), (f2 ++ [], a2)]⟩ from rfl,
                  List.append_nil] at hmid
                rw [hglue1, prun_append_ok text _ _ _ _ hj1run, hglue2, prun_cons,
                  pstep_open text ⟨[], [(f2, a2)]⟩ ⟨['('], a0, a0 + 1⟩ rfl]
                show prun text
                  ((((scanT text 0).drop (j0 + 1)).take (i - j0 - 1)) ++
                    [(scanT text 0)[i]])
                  ⟨[], [([], a0), (f2, a2)]⟩ = _
                rw [prun_append_ok text _ _ _ _ hmid, prun_cons,
                  pstep_close text [] fin a0 [(f2, a2)] _ hcond1 hcond2]
                rfl
        · rw [pstep_atom text s1 _ hcond1 hcond2] at hp
          have hs2 := (Except.ok.inj hp).symm
          subst hs2
          have hnodeAll : ∀ n ∈ allNodes (setSource (createAtom ((scanT text 0)[i]).text)
              (listExtract text ((scanT text 0)[i]).tstart ((scanT text 0)[i]).tstop)),
              goodNode n := by
            intro n hn
            rw [allNodes_eq, childrenOf_setSource, createAtom_children] at hn
            rcases List.mem_cons.mp hn with hh | hh
            · rw [hh]
              exact atom_good text _ (List.getElem?_mem hsome) hcond1 hcond2
            · simp [allNodesL] at hh
          obtain ⟨hsb, hso⟩ := s1
          cases hso with
          | nil =>
            refine ⟨?_, ?_, trivial⟩
            · intro n hn
              simp only [appendCur] at hn
              rw [allNodesL_append] at hn
              rcases List.mem_append.mp hn with hh | hh
              · exact hbase n hh
              · have hx : allNodesL [setSource (createAtom ((scanT text 0)[i]).text)
                    (listExtract text ((scanT text 0)[i]).tstart
                      ((scanT text 0)[i]).tstop)] =
                    allNodes (setSource (createAtom ((scanT text 0)[i]).text)
                      (listExtract text ((scanT text 0)[i]).tstart
                        ((scanT text 0)[i]).tstop)) ++ [] := by
                  simp [allNodesL]
                rw [hx, List.append_nil] at hh
                exact hnodeAll n hh
            · intro pr hpr
              simp [appendCur] at hpr
          | cons fr rest =>
            obtain ⟨f0, a0⟩ := fr
            obtain ⟨j0, hj0lt, hj0tok, hj0run, hj0tail⟩ := hchain
            refine ⟨?_, ?_, ?_⟩
            · intro n hn
              exact hbase n hn
            · intro pr hpr
              simp only [appendCur] at hpr
              rcases List.mem_cons.mp hpr with hh | hh
              · intro n hn
                rw [hh, show ((f0 ++ [setSource (createAtom ((scanT text 0)[i]).text)
                    (listExtract text ((scanT text 0)[i]).tstart
                      ((scanT text 0)[i]).tstop)], a0) :
                    List ASTNode × Nat).1 = f0 ++ [setSource
                      (createAtom ((scanT text 0)[i]).text)
                      (listExtract text ((scanT text 0)[i]).tstart
                        ((scanT text 0)[i]).tstop)] from rfl] at hn
                rw [allNodesL_append] at hn
                rcases List.mem_append.mp hn with hh2 | hh2
                · exact hframes (f0, a0) (List.mem_cons_self _ _) n hh2
                · have hx : allNodesL [setSource (createAtom ((scanT text 0)[i]).text)
                      (listExtract text ((scanT text 0)[i]).tstart
                        ((scanT text 0)[i]).tstop)] =
                      allNodes (setSource (createAtom ((scanT text 0)[i]).text)
                        (listExtract text ((scanT text 0)[i]).tstart
                          ((scanT text 0)[i]).tstop)) ++ [] := by
                    simp [allNodesL]
                  rw [hx, List.append_nil] at hh2
                  exact hnodeAll n hh2
              · exact hframes pr (List.mem_cons_of_mem _ hh)
            · refine ⟨j0, by omega, hj0tok, ?_, hj0tail⟩
              have hwin : ((scanT text 0).drop (j0 + 1)).take (i + 1 - j0 - 1) =
                  ((scanT text 0).drop (j0 + 1)).take (i - j0 - 1) ++
                    [(scanT text 0)[i]] := by
                rw [show i + 1 - j0 - 1 = (i - j0 - 1) + 1 from by omega, List.take_succ,
                  List.getElem?_drop, show j0 + 1 + (i - j0 - 1) = i from by omega,
                  hsome]
                rfl
              rw [hwin, prun_append_ok text _ _ _ _ hj0run, prun_cons,
                pstep_atom text ⟨[], [(f0, a0)]⟩ _ hcond1 hcond2]
              rfl

/-- Claim C4: after a successful parse, every node of the resulting forest
(descendants included) round-trips: re-slicing the original input text at
the node's recorded source span and independently lexing and parsing that
substring in isolation reproduces exactly that node; and every
parenthesized node's span (a generic Expression, or a promoted Operator
with accumulated children) begins with its opening parenthesis and ends
with its closing parenthesis inclusive. -/
theorem c4_round_trip (text : List Char) (ns : List ASTNode)
    (h : parse (tokenize text) text = Except.ok ns) :
    ∀ n ∈ allNodesL ns, goodNode n := by
  rcases parse_out (tokenize text) text with ⟨e, -, -, hp⟩ | ⟨s, hpr, hso, hp⟩ |
    ⟨s, -, -, hp⟩
  · rw [hp] at h
    exact absurd h (by simp)
  · rw [hp] at h
    have hns : ns = s.base := (Except.ok.inj h).symm
    subst hns
    have hpr2 : prun text ((scanT text 0).take ((scanT text 0).length)) ⟨[], []⟩ =
        Except.ok s := by
      rw [List.take_length]
      rw [show scanT text 0 = tokenize text from rfl]
      exact hpr
    obtain ⟨hbase, -, -⟩ := prun_good text ((scanT text 0).length) (Nat.le_refl _) s hpr2
    exact hbase
  · rw [hp] at h
    exact absurd h (by simp)

/-- Witness for C4 at the concrete input of a single parenthesized symbol:
the Expression node parsed from that input round-trips together with its
span endpoints. -/
theorem c4_round_trip_witness :
    goodNode (ASTNode.expr [ASTNode.symbol ['a'] (some ['a'])]
      (some ['(', 'a', ')'])) :=
  c4_round_trip ['(', 'a', ')']
    [ASTNode.expr [ASTNode.symbol ['a'] (some ['a'])] (some ['(', 'a', ')'])]
    (by rfl)
    (ASTNode.expr [ASTNode.symbol ['a'] (some ['a'])] (some ['(', 'a', ')']))
    (by simp [allNodesL, allNodes])

end SuoKif
